import Mathlib

/-!
# KeyChord codec (src/cascadia/TerminalSettings/KeyChord.cpp)

A shallow embedding of the key-chord codec of the terminal settings library:
the static table `vkeyNamePairs`, the value type `KeyChord`, the parser
`KeyChord::FromString` and the formatter `KeyChord::ToString`.

Modelling conventions.
* `wchar_t` is a natural number (a UTF-16 code unit); a `std::wstring` is a
  list of them.  The one code unit the code treats specially besides `+` is
  `WEOF`: the stream that splits the text cannot tell it from the end of the
  text (see `getlineLoop`).
* `int32_t` key codes are integers.  The only arithmetic done on them is
  `wch - 0x20` and `_vkey + 0x20` inside guarded ranges; the narrowing
  `static_cast<wchar_t>` is modelled by an explicit `% 2^16`.
* `throw hresult_invalid_argument()` is `Except.error hresult.invalid_argument`.
-/

/-- A `std::wstring` / `hstring`: a sequence of `wchar_t` code units, each a
natural number. -/
abbrev wstring := List Nat

/-- The wide string literal `L"..."` (all literals used here are ASCII). -/
def L (s : String) : wstring := s.toList.map Char.toNat

/-- The exception thrown by `FromString`. -/
inductive hresult where
  | invalid_argument
  deriving DecidableEq, Repr

deriving instance DecidableEq for Except

/-! ## Windows virtual-key codes (winuser.h) used by the table -/

def VK_BACK : Int := 0x08
def VK_TAB : Int := 0x09
def VK_RETURN : Int := 0x0D
def VK_ESCAPE : Int := 0x1B
def VK_SPACE : Int := 0x20
def VK_PRIOR : Int := 0x21
def VK_NEXT : Int := 0x22
def VK_END : Int := 0x23
def VK_HOME : Int := 0x24
def VK_LEFT : Int := 0x25
def VK_UP : Int := 0x26
def VK_RIGHT : Int := 0x27
def VK_DOWN : Int := 0x28
def VK_INSERT : Int := 0x2D
def VK_DELETE : Int := 0x2E
def VK_NUMPAD0 : Int := 0x60
def VK_NUMPAD1 : Int := 0x61
def VK_NUMPAD2 : Int := 0x62
def VK_NUMPAD3 : Int := 0x63
def VK_NUMPAD4 : Int := 0x64
def VK_NUMPAD5 : Int := 0x65
def VK_NUMPAD6 : Int := 0x66
def VK_NUMPAD7 : Int := 0x67
def VK_NUMPAD8 : Int := 0x68
def VK_NUMPAD9 : Int := 0x69
def VK_MULTIPLY : Int := 0x6A
def VK_ADD : Int := 0x6B
def VK_SUBTRACT : Int := 0x6D
def VK_DECIMAL : Int := 0x6E
def VK_DIVIDE : Int := 0x6F
def VK_F1 : Int := 0x70
def VK_F2 : Int := 0x71
def VK_F3 : Int := 0x72
def VK_F4 : Int := 0x73
def VK_F5 : Int := 0x74
def VK_F6 : Int := 0x75
def VK_F7 : Int := 0x76
def VK_F8 : Int := 0x77
def VK_F9 : Int := 0x78
def VK_F10 : Int := 0x79
def VK_F11 : Int := 0x7A
def VK_F12 : Int := 0x7B
def VK_F13 : Int := 0x7C
def VK_F14 : Int := 0x7D
def VK_F15 : Int := 0x7E
def VK_F16 : Int := 0x7F
def VK_F17 : Int := 0x80
def VK_F18 : Int := 0x81
def VK_F19 : Int := 0x82
def VK_F20 : Int := 0x83
def VK_F21 : Int := 0x84
def VK_F22 : Int := 0x85
def VK_F23 : Int := 0x86
def VK_F24 : Int := 0x87
def VK_OEM_PLUS : Int := 0xBB
def VK_OEM_COMMA : Int := 0xBC
def VK_OEM_MINUS : Int := 0xBD
def VK_OEM_PERIOD : Int := 0xBE

/-! ## File-level constants -/

def CTRL_KEY : wstring := L "ctrl"
def SHIFT_KEY : wstring := L "shift"
def ALT_KEY : wstring := L "alt"

/-- The static table `vkeyNamePairs`, in source order. -/
def vkeyNamePairs : List (Int × wstring) :=
  [ (VK_BACK, L "backspace"),
    (VK_TAB, L "tab"),
    (VK_RETURN, L "enter"),
    (VK_ESCAPE, L "esc"),
    (VK_SPACE, L "space"),
    (VK_PRIOR, L "pgup"),
    (VK_NEXT, L "pgdn"),
    (VK_END, L "end"),
    (VK_HOME, L "home"),
    (VK_LEFT, L "left"),
    (VK_UP, L "up"),
    (VK_RIGHT, L "right"),
    (VK_DOWN, L "down"),
    (VK_INSERT, L "insert"),
    (VK_DELETE, L "delete"),
    (VK_NUMPAD0, L "numpad_0"),
    (VK_NUMPAD1, L "numpad_1"),
    (VK_NUMPAD2, L "numpad_2"),
    (VK_NUMPAD3, L "numpad_3"),
    (VK_NUMPAD4, L "numpad_4"),
    (VK_NUMPAD5, L "numpad_5"),
    (VK_NUMPAD6, L "numpad_6"),
    (VK_NUMPAD7, L "numpad_7"),
    (VK_NUMPAD8, L "numpad_8"),
    (VK_NUMPAD9, L "numpad_9"),
    (VK_MULTIPLY, L "*"),
    (VK_ADD, L "+"),
    (VK_SUBTRACT, L "-"),
    (VK_DECIMAL, L "."),
    (VK_DIVIDE, L "/"),
    (VK_F1, L "f1"),
    (VK_F2, L "f2"),
    (VK_F3, L "f3"),
    (VK_F4, L "f4"),
    (VK_F5, L "f5"),
    (VK_F6, L "f6"),
    (VK_F7, L "f7"),
    (VK_F8, L "f8"),
    (VK_F9, L "f9"),
    (VK_F10, L "f10"),
    (VK_F11, L "f11"),
    (VK_F12, L "f12"),
    (VK_F13, L "f13"),
    (VK_F14, L "f14"),
    (VK_F15, L "f15"),
    (VK_F16, L "f16"),
    (VK_F17, L "f17"),
    (VK_F18, L "f18"),
    (VK_F19, L "f19"),
    (VK_F20, L "f20"),
    (VK_F21, L "f21"),
    (VK_F22, L "f22"),
    (VK_F23, L "f23"),
    (VK_F24, L "f24"),
    (VK_OEM_PLUS, L "+"),
    (VK_OEM_COMMA, L ","),
    (VK_OEM_MINUS, L "-"),
    (VK_OEM_PERIOD, L ".") ]

/-! ## The flags enum and the value type -/

/-- A value of the flags enum `Settings::KeyModifiers`: a bit mask. -/
abbrev KeyModifiers := Nat

/-- Modelled from the spec: the enumerators of `Settings::KeyModifiers` are
declared in KeyChord.idl, which is not among the sources.  The spec describes
three independent flags Ctrl, Alt and Shift next to the empty set; they are
taken to be the distinct single bits below. -/
def KeyModifiers.None : KeyModifiers := 0x0000

/-- Modelled from the spec: the flag Alt of `Settings::KeyModifiers`. -/
def KeyModifiers.Alt : KeyModifiers := 0x0001

/-- Modelled from the spec: the flag Ctrl of `Settings::KeyModifiers`. -/
def KeyModifiers.Ctrl : KeyModifiers := 0x0002

/-- Modelled from the spec: the flag Shift of `Settings::KeyModifiers`. -/
def KeyModifiers.Shift : KeyModifiers := 0x0004

/-- The test `WI_IsFlagSet(val, flag)` of the Windows Implementation Library
for a single-bit `flag`: the bit is set in `val`. -/
def WI_IsFlagSet (val flag : KeyModifiers) : Bool := (val &&& flag) != 0

/-- The members `_modifiers` and `_vkey` of `KeyChord`. -/
structure KeyChord where
  _modifiers : KeyModifiers
  _vkey : Int
  deriving DecidableEq, Repr

namespace KeyChord

/-- The constructor `KeyChord(bool ctrl, bool alt, bool shift, int32_t vkey)`. -/
def ofBools (ctrl alt shift : Bool) (vkey : Int) : KeyChord :=
  { _modifiers :=
      (if ctrl then KeyModifiers.Ctrl else KeyModifiers.None) |||
      (if alt then KeyModifiers.Alt else KeyModifiers.None) |||
      (if shift then KeyModifiers.Shift else KeyModifiers.None),
    _vkey := vkey }

/-- The constructor `KeyChord(KeyModifiers const& modifiers, int32_t vkey)`. -/
def ofModifiers (modifiers : KeyModifiers) (vkey : Int) : KeyChord :=
  { _modifiers := modifiers, _vkey := vkey }

/-- The getter `Modifiers()`. -/
def Modifiers (self : KeyChord) : KeyModifiers := self._modifiers

/-- The setter `Modifiers(value)`. -/
def setModifiers (self : KeyChord) (value : KeyModifiers) : KeyChord :=
  { self with _modifiers := value }

/-- The getter `Vkey()`. -/
def Vkey (self : KeyChord) : Int := self._vkey

/-- The setter `Vkey(value)`. -/
def setVkey (self : KeyChord) (value : Int) : KeyChord :=
  { self with _vkey := value }

/-! ## FromString -/

/-- The value `std::char_traits<wchar_t>::eof()`, that is `WEOF`, of the
library this Windows component is built with: `wchar_t` has 16 bits and the
value is `0xFFFF`. -/
def WEOF : Nat := 0xFFFF

/-- The loop `while (std::getline(wss, temp, L'+')) parts.push_back(temp);`
run over the characters still in the stream.  `temp` holds what the current
`getline` call has extracted so far.  Each call reads the stream unit by unit
and compares the unit first with `eof()`, then with the delimiter:
* at the end of the stream, and likewise at a code unit equal to `eof()`,
  which the stream cannot tell from its end, the call sets `eofbit`; it
  succeeds when it has extracted at least one character and fails otherwise,
  and every later call fails, so the loop ends there and nothing behind such a
  unit is read;
* at the delimiter the call extracts it and succeeds, also with an empty
  `temp`;
* every other unit is appended to `temp`. -/
def getlineLoop : List Nat → wstring → List wstring
  | [], temp => if temp.isEmpty then [] else [temp]
  | wch :: wss, temp =>
    if wch = WEOF then (if temp.isEmpty then [] else [temp])
    else if wch = 0x2B then temp :: getlineLoop wss []
    else getlineLoop wss (temp ++ [wch])

/-- The vector `parts` of `FromString`. -/
def splitParts (wstr : wstring) : List wstring := getlineLoop wstr []

/-- The quick lookup of `FromString`: `some vkey` when `foundKey` was set. -/
def quickLookup (part : wstring) : Option Int :=
  match part with
  | [wch] =>
    if 0x30 ≤ wch ∧ wch ≤ 0x39 then some (wch : Int)
    else if 0x61 ≤ wch ∧ wch ≤ 0x7A then some ((wch : Int) - 0x20)
    else if 0x41 ≤ wch ∧ wch ≤ 0x5A then some (wch : Int)
    else none
  | _ => none

/-- The search `for (const auto& pair : vkeyNamePairs) if (pair.second == part)`. -/
def searchName (part : wstring) : List (Int × wstring) → Option Int
  | [] => none
  | pair :: rest => if pair.2 = part then some pair.1 else searchName part rest

/-- The `else` branch of the loop body: the key code found for `part`, or
`none` when `foundKey` stays false. -/
def findKey (part : wstring) : Option Int :=
  match quickLookup part with
  | some vkey => some vkey
  | none => searchName part vkeyNamePairs

/-- One iteration of `for (const auto& part : parts)` on the locals
`(modifiers, vkey)`. -/
def parsePart (st : KeyModifiers × Int) (part : wstring) :
    Except hresult (KeyModifiers × Int) :=
  if part = CTRL_KEY then .ok (st.1 ||| KeyModifiers.Ctrl, st.2)
  else if part = ALT_KEY then .ok (st.1 ||| KeyModifiers.Alt, st.2)
  else if part = SHIFT_KEY then .ok (st.1 ||| KeyModifiers.Shift, st.2)
  else
    match findKey part with
    | some vkey => .ok (st.1, vkey)
    | none => .error hresult.invalid_argument

/-- The whole loop `for (const auto& part : parts)`. -/
def parseParts : List wstring → KeyModifiers × Int → Except hresult (KeyModifiers × Int)
  | [], st => .ok st
  | part :: rest, st =>
    match parsePart st part with
    | .ok st2 => parseParts rest st2
    | .error e => .error e

/-- The static method `KeyChord::FromString`. -/
def FromString (hstr : wstring) : Except hresult KeyChord :=
  let parts := splitParts hstr
  if parts.length > 4 then .error hresult.invalid_argument
  else
    match parseParts parts (KeyModifiers.None, 0) with
    | .ok st => .ok { _modifiers := st.1, _vkey := st.2 }
    | .error e => .error e

/-! ## ToString -/

/-- The search `for (const auto& pair : vkeyNamePairs) if (pair.first == _vkey)`. -/
def searchVkey (vkey : Int) : List (Int × wstring) → Option wstring
  | [] => none
  | pair :: rest => if pair.1 = vkey then some pair.2 else searchVkey vkey rest

/-- The narrowing conversion `static_cast<wchar_t>(v)`. -/
def toWchar (v : Int) : Nat := (v % 65536).toNat

/-- The first half of `ToString`: the buffer after the three modifier tests. -/
def modifierBuffer (modifiers : KeyModifiers) : wstring :=
  let buffer : wstring := []
  let buffer := if WI_IsFlagSet modifiers KeyModifiers.Ctrl then buffer ++ CTRL_KEY ++ L "+" else buffer
  let buffer := if WI_IsFlagSet modifiers KeyModifiers.Alt then buffer ++ ALT_KEY ++ L "+" else buffer
  let buffer := if WI_IsFlagSet modifiers KeyModifiers.Shift then buffer ++ SHIFT_KEY ++ L "+" else buffer
  buffer

/-- The second half of `ToString`: the pair `(buffer, serializedSuccessfully)`
after the key lookup. -/
def appendKey (buffer : wstring) (vkey : Int) : wstring × Bool :=
  if 0x30 ≤ vkey ∧ vkey ≤ 0x39 then (buffer ++ [toWchar vkey], true)
  else if 0x41 ≤ vkey ∧ vkey ≤ 0x5A then (buffer ++ [toWchar (vkey + 0x20)], true)
  else
    match searchVkey vkey vkeyNamePairs with
    | some name => (buffer ++ name, true)
    | none => (buffer, false)

/-- The method `KeyChord::ToString`. -/
def ToString (self : KeyChord) : wstring :=
  let r := appendKey (modifierBuffer self._modifiers) self._vkey
  if !r.2 then L "" else r.1

end KeyChord

/-! ## Vocabulary of the specification -/

/-- The token is one of the modifier keywords `"ctrl"`, `"alt"`, `"shift"`. -/
def isModifierKey (part : wstring) : Prop :=
  part = CTRL_KEY ∨ part = ALT_KEY ∨ part = SHIFT_KEY

instance (part : wstring) : Decidable (isModifierKey part) := by
  unfold isModifierKey; infer_instance

/-- The names listed in the key-name table. -/
def tableNames : List wstring := vkeyNamePairs.map Prod.snd

/-- The optional leading modifiers of the documented format
`[ctrl+][alt+][shift+]`, in that order, each at most once. -/
def modifierText (ctrl alt shift : Bool) : wstring :=
  (if ctrl then L "ctrl+" else L "") ++ (if alt then L "alt+" else L "") ++
    (if shift then L "shift+" else L "")

/-- The tokens of `modifierText`. -/
def modifierTokens (ctrl alt shift : Bool) : List wstring :=
  (if ctrl then [CTRL_KEY] else []) ++ (if alt then [ALT_KEY] else []) ++
    (if shift then [SHIFT_KEY] else [])

/-- A canonical key spelling: a digit, a lowercase letter, or a table name. -/
def isCanonicalKey (key : wstring) : Prop :=
  (∃ wch : Nat, key = [wch] ∧ (0x30 ≤ wch ∧ wch ≤ 0x39 ∨ 0x61 ≤ wch ∧ wch ≤ 0x7A)) ∨
    key ∈ tableNames

/-- The key name of a code as the specification words it: the digit character
for a digit code, the lowercase letter for an uppercase-letter code, otherwise
the name of the first table entry with that code (if any). -/
def keyName (vkey : Int) : Option wstring :=
  if 0x30 ≤ vkey ∧ vkey ≤ 0x39 then some [vkey.toNat]
  else if 0x41 ≤ vkey ∧ vkey ≤ 0x5A then some [(vkey + 0x20).toNat]
  else (vkeyNamePairs.find? (fun pair => pair.1 = vkey)).map Prod.snd

/-- A key token as the specification words it: a single character in
`0`-`9`, `a`-`z`, `A`-`Z`, or the name of a key-name-table entry. -/
def isKeyToken (part : wstring) : Prop :=
  (∃ wch : Nat, part = [wch] ∧
      (0x30 ≤ wch ∧ wch ≤ 0x39 ∨ 0x61 ≤ wch ∧ wch ≤ 0x7A ∨ 0x41 ≤ wch ∧ wch ≤ 0x5A)) ∨
    part ∈ tableNames

/-- A text made of the given tokens, each followed by the delimiter `+`. -/
def joinParts (parts : List wstring) : wstring :=
  (parts.map (fun part => part ++ L "+")).flatten

/-- The flag set holding Ctrl, Alt, Shift exactly when the respective keyword
occurs among the tokens. -/
def modifierFlags (parts : List wstring) : KeyModifiers :=
  (KeyChord.ofBools (decide (CTRL_KEY ∈ parts)) (decide (ALT_KEY ∈ parts))
    (decide (SHIFT_KEY ∈ parts)) 0)._modifiers

/-- Lowercase an ASCII letter, leave every other code unit alone. -/
def lowerCase (wch : Nat) : Nat :=
  if 0x41 ≤ wch ∧ wch ≤ 0x5A then wch + 0x20 else wch

/-- The key lookup of `FromString` with the two steps in the other order:
the table search first, the quick lookup when the table has no such name. -/
def findKeyTableFirst (part : wstring) : Option Int :=
  match KeyChord.searchName part vkeyNamePairs with
  | some vkey => some vkey
  | none => KeyChord.quickLookup part

/-- The key lookup of `ToString` with the two steps in the other order: the
table search first, the two quick ranges when the table has no such code. -/
def appendKeyTableFirst (buffer : wstring) (vkey : Int) : wstring × Bool :=
  match KeyChord.searchVkey vkey vkeyNamePairs with
  | some name => (buffer ++ name, true)
  | none =>
    if 0x30 ≤ vkey ∧ vkey ≤ 0x39 then (buffer ++ [KeyChord.toWchar vkey], true)
    else if 0x41 ≤ vkey ∧ vkey ≤ 0x5A then (buffer ++ [KeyChord.toWchar (vkey + 0x20)], true)
    else (buffer, false)

/-- The composition format after parse: the text `ToString` gives for the
chord `FromString` returns, or the error of `FromString`. -/
def parseThenFormat (text : wstring) : Except hresult wstring :=
  match KeyChord.FromString text with
  | .ok c => .ok (KeyChord.ToString c)
  | .error e => .error e

/-! ## Wide literals as explicit code units -/

theorem CTRL_KEY_eq : CTRL_KEY = [0x63, 0x74, 0x72, 0x6C] := by decide
theorem ALT_KEY_eq : ALT_KEY = [0x61, 0x6C, 0x74] := by decide
theorem SHIFT_KEY_eq : SHIFT_KEY = [0x73, 0x68, 0x69, 0x66, 0x74] := by decide
theorem L_plus_eq : L "+" = [0x2B] := by decide
theorem L_empty_eq : L "" = [] := by decide

/-! ## The flag test on bit masks -/

theorem and_two_pow_eq_zero_iff (m i : Nat) : m &&& 2 ^ i = 0 ↔ m.testBit i = false := by
  constructor
  · intro h
    have h2 : (m &&& 2 ^ i).testBit i = false := by rw [h]; simp
    simpa [Nat.testBit_two_pow_self] using h2
  · intro h
    apply Nat.eq_of_testBit_eq
    intro j
    by_cases hij : i = j
    · subst hij
      simp [h]
    · simp [Nat.testBit_two_pow, hij]

theorem isFlagSet_Alt (m : KeyModifiers) : WI_IsFlagSet m KeyModifiers.Alt = m.testBit 0 := by
  have h := and_two_pow_eq_zero_iff m 0
  unfold WI_IsFlagSet KeyModifiers.Alt
  cases hb : m.testBit 0
  · simpa using h.2 hb
  · have : ¬ (m &&& 2 ^ 0 = 0) := by rw [h]; simp [hb]
    simpa using this

theorem isFlagSet_Ctrl (m : KeyModifiers) : WI_IsFlagSet m KeyModifiers.Ctrl = m.testBit 1 := by
  have h := and_two_pow_eq_zero_iff m 1
  unfold WI_IsFlagSet KeyModifiers.Ctrl
  cases hb : m.testBit 1
  · simpa using h.2 hb
  · have : ¬ (m &&& 2 ^ 1 = 0) := by rw [h]; simp [hb]
    simpa using this

theorem isFlagSet_Shift (m : KeyModifiers) : WI_IsFlagSet m KeyModifiers.Shift = m.testBit 2 := by
  have h := and_two_pow_eq_zero_iff m 2
  unfold WI_IsFlagSet KeyModifiers.Shift
  cases hb : m.testBit 2
  · simpa using h.2 hb
  · have : ¬ (m &&& 2 ^ 2 = 0) := by rw [h]; simp [hb]
    simpa using this

namespace KeyChord

/-! ## The splitter -/

theorem delim_ne_WEOF : (0x2B : Nat) ≠ WEOF := by decide

theorem getlineLoop_token_delim (tok rest temp : wstring) (h : 0x2B ∉ tok ∧ WEOF ∉ tok) :
    getlineLoop (tok ++ 0x2B :: rest) temp = (temp ++ tok) :: getlineLoop rest [] := by
  induction tok generalizing temp with
  | nil => simp [getlineLoop, delim_ne_WEOF]
  | cons wch tok ih =>
    have hw : wch ≠ 0x2B := fun e => h.1 (by simp [e])
    have he : wch ≠ WEOF := fun e => h.2 (by simp [e])
    have ht : 0x2B ∉ tok ∧ WEOF ∉ tok :=
      ⟨fun e => h.1 (by simp [e]), fun e => h.2 (by simp [e])⟩
    simp [getlineLoop, hw, he, ih _ ht]

theorem getlineLoop_last_token (tok temp : wstring) (h : 0x2B ∉ tok ∧ WEOF ∉ tok)
    (hne : temp ++ tok ≠ []) :
    getlineLoop tok temp = [temp ++ tok] := by
  induction tok generalizing temp with
  | nil =>
    have : temp ≠ [] := by simpa using hne
    simp [getlineLoop, this]
  | cons wch tok ih =>
    have hw : wch ≠ 0x2B := fun e => h.1 (by simp [e])
    have he : wch ≠ WEOF := fun e => h.2 (by simp [e])
    have ht : 0x2B ∉ tok ∧ WEOF ∉ tok :=
      ⟨fun e => h.1 (by simp [e]), fun e => h.2 (by simp [e])⟩
    simp [getlineLoop, hw, he, ih (temp ++ [wch]) ht]

theorem splitParts_token_delim (tok rest : wstring) (h : 0x2B ∉ tok ∧ WEOF ∉ tok) :
    splitParts (tok ++ 0x2B :: rest) = tok :: splitParts rest := by
  simpa [splitParts] using getlineLoop_token_delim tok rest [] h

theorem splitParts_last_token (tok : wstring) (h : 0x2B ∉ tok ∧ WEOF ∉ tok) (hne : tok ≠ []) :
    splitParts tok = [tok] := by
  simpa [splitParts] using getlineLoop_last_token tok [] h (by simpa using hne)

/-! ## Modifier texts -/

theorem splitParts_modifierText (ctrl alt shift : Bool) (rest : wstring) :
    splitParts (modifierText ctrl alt shift ++ rest) =
      modifierTokens ctrl alt shift ++ splitParts rest := by
  have e1 : L "ctrl+" = CTRL_KEY ++ [0x2B] := by decide
  have e2 : L "alt+" = ALT_KEY ++ [0x2B] := by decide
  have e3 : L "shift+" = SHIFT_KEY ++ [0x2B] := by decide
  have n1 : 0x2B ∉ CTRL_KEY ∧ WEOF ∉ CTRL_KEY := by decide
  have n2 : 0x2B ∉ ALT_KEY ∧ WEOF ∉ ALT_KEY := by decide
  have n3 : 0x2B ∉ SHIFT_KEY ∧ WEOF ∉ SHIFT_KEY := by decide
  cases ctrl <;> cases alt <;> cases shift <;>
    simp [modifierText, modifierTokens, e1, e2, e3, L_empty_eq,
      splitParts_token_delim _ _ n1, splitParts_token_delim _ _ n2,
      splitParts_token_delim _ _ n3]

theorem parseParts_modifierTokens (ctrl alt shift : Bool) (rest : List wstring) :
    parseParts (modifierTokens ctrl alt shift ++ rest) (KeyModifiers.None, 0) =
      parseParts rest ((ofBools ctrl alt shift 0)._modifiers, 0) := by
  have d1 : ALT_KEY ≠ CTRL_KEY := by decide
  have d2 : SHIFT_KEY ≠ CTRL_KEY := by decide
  have d3 : SHIFT_KEY ≠ ALT_KEY := by decide
  cases ctrl <;> cases alt <;> cases shift <;>
    simp [modifierTokens, parseParts, parsePart, ofBools, d1, d2, d3,
      KeyModifiers.None, KeyModifiers.Ctrl, KeyModifiers.Alt, KeyModifiers.Shift]

theorem modifierTokens_length (ctrl alt shift : Bool) :
    (modifierTokens ctrl alt shift).length ≤ 3 := by
  cases ctrl <;> cases alt <;> cases shift <;> decide

theorem modifierBuffer_ofBools (ctrl alt shift : Bool) (vkey : Int) :
    modifierBuffer (ofBools ctrl alt shift vkey)._modifiers = modifierText ctrl alt shift := by
  have h : ∀ c a s : Bool, modifierBuffer (ofBools c a s 0)._modifiers = modifierText c a s := by
    decide
  exact h ctrl alt shift

theorem modifierBuffer_eq (m : KeyModifiers) :
    modifierBuffer m =
      modifierText (WI_IsFlagSet m KeyModifiers.Ctrl) (WI_IsFlagSet m KeyModifiers.Alt)
        (WI_IsFlagSet m KeyModifiers.Shift) := by
  have e1 : L "ctrl+" = CTRL_KEY ++ L "+" := by decide
  have e2 : L "alt+" = ALT_KEY ++ L "+" := by decide
  have e3 : L "shift+" = SHIFT_KEY ++ L "+" := by decide
  unfold modifierBuffer modifierText
  cases WI_IsFlagSet m KeyModifiers.Ctrl <;> cases WI_IsFlagSet m KeyModifiers.Alt <;>
    cases WI_IsFlagSet m KeyModifiers.Shift <;> simp [e1, e2, e3, L_empty_eq]

/-! ## The formatter in closed form -/

theorem searchVkey_eq_find (vkey : Int) (table : List (Int × wstring)) :
    searchVkey vkey table = (table.find? (fun pair => pair.1 = vkey)).map Prod.snd := by
  induction table with
  | nil => rfl
  | cons pair rest ih =>
    by_cases h : pair.1 = vkey <;> simp [searchVkey, List.find?, h, ih]

theorem appendKey_eq (buffer : wstring) (vkey : Int) :
    appendKey buffer vkey =
      match keyName vkey with
      | some name => (buffer ++ name, true)
      | none => (buffer, false) := by
  unfold appendKey keyName
  by_cases h1 : 0x30 ≤ vkey ∧ vkey ≤ 0x39
  · have : toWchar vkey = vkey.toNat := by
      have e : vkey % 65536 = vkey := by omega
      simp [toWchar, e]
    simp [h1, this]
  · by_cases h2 : 0x41 ≤ vkey ∧ vkey ≤ 0x5A
    · have : toWchar (vkey + 0x20) = (vkey + 0x20).toNat := by
        have e : (vkey + 0x20) % 65536 = vkey + 0x20 := by omega
        simp only [toWchar, e]
      simp [h1, h2, this]
    · simp only [h1, h2, if_false, searchVkey_eq_find]

theorem ToString_eq (c : KeyChord) :
    ToString c =
      match keyName c._vkey with
      | some name => modifierBuffer c._modifiers ++ name
      | none => [] := by
  unfold ToString
  rw [appendKey_eq]
  cases keyName c._vkey <;> simp [L_empty_eq]

/-! ## Facts about the table, checked entry by entry -/

set_option maxRecDepth 100000 in
theorem table_name_facts : ∀ pair ∈ vkeyNamePairs, pair.2 ≠ L "+" →
    ((0x2B ∉ pair.2 ∧ WEOF ∉ pair.2) ∧ pair.2 ≠ [] ∧ ¬ isModifierKey pair.2 ∧
      quickLookup pair.2 = none ∧ (findKey pair.2).bind keyName = some pair.2) := by
  decide

theorem parsePart_key (st : KeyModifiers × Int) (part : wstring) (h : ¬ isModifierKey part) :
    parsePart st part =
      match findKey part with
      | some vkey => .ok (st.1, vkey)
      | none => .error hresult.invalid_argument := by
  unfold isModifierKey at h
  have h1 : part ≠ CTRL_KEY := fun e => h (Or.inl e)
  have h2 : part ≠ ALT_KEY := fun e => h (Or.inr (Or.inl e))
  have h3 : part ≠ SHIFT_KEY := fun e => h (Or.inr (Or.inr e))
  simp [parsePart, h1, h2, h3]

/-- Parsing a text of the documented format: optional modifiers in canonical
order followed by one key token free of the delimiter and of `WEOF`. -/
theorem FromString_modifierText_key (ctrl alt shift : Bool) (key : wstring)
    (h1 : 0x2B ∉ key ∧ WEOF ∉ key) (h2 : key ≠ []) (h3 : ¬ isModifierKey key) :
    FromString (modifierText ctrl alt shift ++ key) =
      match findKey key with
      | some vkey => .ok (ofBools ctrl alt shift vkey)
      | none => .error hresult.invalid_argument := by
  have hlen : ¬ (modifierTokens ctrl alt shift ++ [key]).length > 4 := by
    have := modifierTokens_length ctrl alt shift
    simp only [List.length_append, List.length_singleton]
    omega
  unfold FromString
  simp only [splitParts_modifierText, splitParts_last_token key h1 h2, hlen, if_false,
    parseParts_modifierTokens]
  simp only [parseParts, parsePart_key _ key h3]
  cases findKey key <;> simp [ofBools]

theorem canonicalKey_facts (key : wstring) (hkey : isCanonicalKey key) (hplus : key ≠ L "+") :
    (0x2B ∉ key ∧ WEOF ∉ key) ∧ key ≠ [] ∧ ¬ isModifierKey key ∧
      (findKey key).bind keyName = some key := by
  rcases hkey with ⟨wch, rfl, hr⟩ | hmem
  · refine ⟨?_, by simp, ?_, ?_⟩
    · simp only [List.mem_singleton, WEOF]; omega
    · simp [isModifierKey, CTRL_KEY_eq, ALT_KEY_eq, SHIFT_KEY_eq]
    · rcases hr with hd | hl
      · have e : findKey [wch] = some (wch : Int) := by simp [findKey, quickLookup, hd]
        have hd2 : (0x30 : Int) ≤ wch ∧ (wch : Int) ≤ 0x39 := by omega
        simp [e, keyName, hd2]
      · have hnd : ¬ (0x30 ≤ wch ∧ wch ≤ 0x39) := by omega
        have e : findKey [wch] = some ((wch : Int) - 0x20) := by
          simp [findKey, quickLookup, hnd, hl]
        have k1 : ¬ ((0x30 : Int) ≤ (wch : Int) - 0x20 ∧ (wch : Int) - 0x20 ≤ 0x39) := by omega
        have k2 : (0x41 : Int) ≤ (wch : Int) - 0x20 ∧ (wch : Int) - 0x20 ≤ 0x5A := by omega
        rw [e, Option.some_bind, keyName, if_neg k1, if_pos k2]
        simp
  · obtain ⟨pair, hp, rfl⟩ := List.mem_map.1 hmem
    obtain ⟨a, b, c, _, e⟩ := table_name_facts pair hp hplus
    exact ⟨a, b, c, e⟩

theorem FromString_modifierText_plus (ctrl alt shift : Bool) :
    FromString (modifierText ctrl alt shift ++ L "+") = .error hresult.invalid_argument := by
  have h : ∀ c a s : Bool,
      FromString (modifierText c a s ++ L "+") = .error hresult.invalid_argument := by decide
  exact h ctrl alt shift

/-- C1 (text round trip).  For every text in canonical form, that is the
optional modifiers `ctrl+`, `alt+`, `shift+` in that order, each at most once,
followed by one canonical key spelling (a digit, a lowercase letter or a name
of the key-name table), if `FromString` succeeds on the text then `ToString`
of the parsed chord is the text itself. -/
theorem toString_fromString_canonical (ctrl alt shift : Bool) (key : wstring)
    (hkey : isCanonicalKey key) (c : KeyChord)
    (h : FromString (modifierText ctrl alt shift ++ key) = .ok c) :
    ToString c = modifierText ctrl alt shift ++ key := by
  by_cases hplus : key = L "+"
  · subst hplus
    rw [FromString_modifierText_plus] at h
    cases h
  · obtain ⟨h1, h2, h3, h4⟩ := canonicalKey_facts key hkey hplus
    rw [FromString_modifierText_key ctrl alt shift key h1 h2 h3] at h
    cases hf : findKey key with
    | none => rw [hf] at h; cases h
    | some vkey =>
      rw [hf] at h h4
      have hc : c = ofBools ctrl alt shift vkey := by
        simp only [Except.ok.injEq] at h
        exact h.symm
      have hn : keyName vkey = some key := by simpa using h4
      subst hc
      rw [ToString_eq]
      simp only [ofBools] at *
      simp only [hn]
      have := modifierBuffer_ofBools ctrl alt shift vkey
      simp only [ofBools] at this
      rw [this]

/-- C1 at a concrete text: `"ctrl+shift+f1"` parses and formats back to itself. -/
theorem toString_fromString_canonical_witness :
    isCanonicalKey (L "f1") ∧
      FromString (modifierText true false true ++ L "f1") = .ok ⟨6, VK_F1⟩ ∧
      modifierText true false true ++ L "f1" = L "ctrl+shift+f1" ∧
      ToString ⟨6, VK_F1⟩ = modifierText true false true ++ L "f1" :=
  ⟨Or.inr (by decide), by decide, by decide,
    toString_fromString_canonical true false true (L "f1") (Or.inr (by decide)) ⟨6, VK_F1⟩
      (by decide)⟩

/-! ## Which tokens resolve -/

theorem quickLookup_eq_none_iff (part : wstring) :
    quickLookup part = none ↔
      ¬ ∃ wch : Nat, part = [wch] ∧
        (0x30 ≤ wch ∧ wch ≤ 0x39 ∨ 0x61 ≤ wch ∧ wch ≤ 0x7A ∨ 0x41 ≤ wch ∧ wch ≤ 0x5A) := by
  match part with
  | [] => simp [quickLookup]
  | [wch] =>
    simp only [quickLookup, List.cons.injEq, and_true]
    constructor
    · intro h ⟨w, hw, hr⟩
      subst hw
      split_ifs at h
      omega
    · intro h
      split_ifs with h1 h2 h3
      · exact absurd ⟨wch, rfl, Or.inl h1⟩ h
      · exact absurd ⟨wch, rfl, Or.inr (Or.inl h2)⟩ h
      · exact absurd ⟨wch, rfl, Or.inr (Or.inr h3)⟩ h
      · rfl
  | _ :: _ :: _ => simp [quickLookup]

theorem searchName_eq_none_iff (part : wstring) (table : List (Int × wstring)) :
    searchName part table = none ↔ part ∉ table.map Prod.snd := by
  induction table with
  | nil => simp [searchName]
  | cons pair rest ih =>
    by_cases h : pair.2 = part
    · simp [searchName, h]
    · have h2 : ¬ part = pair.2 := fun e => h e.symm
      simp [searchName, h, h2, ih]

theorem findKey_eq_none_iff (part : wstring) : findKey part = none ↔ ¬ isKeyToken part := by
  unfold findKey isKeyToken tableNames
  rw [not_or, ← quickLookup_eq_none_iff, ← searchName_eq_none_iff]
  cases quickLookup part <;> simp

/-! ## The token loop -/

theorem parsePart_modifier (st : KeyModifiers × Int) (part : wstring) (h : isModifierKey part) :
    ∃ m, parsePart st part = .ok (m, st.2) := by
  unfold parsePart
  split_ifs with h1 h2 h3
  · exact ⟨_, rfl⟩
  · exact ⟨_, rfl⟩
  · exact ⟨_, rfl⟩
  · rcases h with h | h | h <;> contradiction

theorem parseParts_error_iff (parts : List wstring) (st : KeyModifiers × Int) :
    parseParts parts st = .error hresult.invalid_argument ↔
      ∃ part ∈ parts, ¬ isModifierKey part ∧ findKey part = none := by
  induction parts generalizing st with
  | nil => simp [parseParts]
  | cons part rest ih =>
    by_cases hm : isModifierKey part
    · obtain ⟨m, e⟩ := parsePart_modifier st part hm
      simp [parseParts, e, ih, hm]
    · cases hf : findKey part with
      | none => simp [parseParts, parsePart_key st part hm, hf, hm]
      | some vkey => simp [parseParts, parsePart_key st part hm, hf, ih]

theorem FromString_error_iff (hstr : wstring) :
    FromString hstr = .error hresult.invalid_argument ↔
      (splitParts hstr).length > 4 ∨
        ∃ part ∈ splitParts hstr, ¬ isModifierKey part ∧ findKey part = none := by
  unfold FromString
  by_cases hlen : (splitParts hstr).length > 4
  · simp [hlen]
  · simp only [hlen, if_false, false_or, ← parseParts_error_iff _ (KeyModifiers.None, 0)]
    cases hp : parseParts (splitParts hstr) (KeyModifiers.None, 0) with
    | ok st => simp
    | error e => cases e; simp

theorem FromString_ok_or_error (hstr : wstring) :
    (∃ c, FromString hstr = .ok c) ↔ ¬ FromString hstr = .error hresult.invalid_argument := by
  cases h : FromString hstr with
  | ok c => simp
  | error e => cases e; simp

/-- C3 (failure conditions).  `FromString` fails with the invalid-argument
error if and only if the splitter yields more than 4 tokens or some token is
neither a modifier keyword nor a key token (a single character in `0`-`9`,
`a`-`z`, `A`-`Z`, or a table name); in every other case it returns a chord.
The texts `"a+b+c+d+e"` and `"foo"` both fail. -/
theorem fromString_fails_iff :
    (∀ hstr : wstring,
      (FromString hstr = .error hresult.invalid_argument ↔
        (splitParts hstr).length > 4 ∨
          ∃ part ∈ splitParts hstr, ¬ isModifierKey part ∧ ¬ isKeyToken part) ∧
      ((∃ c, FromString hstr = .ok c) ↔
        ¬ ((splitParts hstr).length > 4 ∨
          ∃ part ∈ splitParts hstr, ¬ isModifierKey part ∧ ¬ isKeyToken part))) ∧
    FromString (L "a+b+c+d+e") = .error hresult.invalid_argument ∧
    (splitParts (L "a+b+c+d+e")).length = 5 ∧
    FromString (L "foo") = .error hresult.invalid_argument := by
  have main : ∀ hstr : wstring,
      (FromString hstr = .error hresult.invalid_argument ↔
        (splitParts hstr).length > 4 ∨
          ∃ part ∈ splitParts hstr, ¬ isModifierKey part ∧ ¬ isKeyToken part) := by
    intro hstr
    rw [FromString_error_iff]
    simp only [findKey_eq_none_iff]
  refine ⟨fun hstr => ⟨main hstr, ?_⟩, by decide, by decide, by decide⟩
  rw [FromString_ok_or_error, main hstr]

/-! ## Codes the formatter resolves -/

theorem keyName_eq_none_iff (vkey : Int) :
    keyName vkey = none ↔
      ¬ (0x30 ≤ vkey ∧ vkey ≤ 0x39) ∧ ¬ (0x41 ≤ vkey ∧ vkey ≤ 0x5A) ∧
        vkey ∉ vkeyNamePairs.map Prod.fst := by
  unfold keyName
  by_cases h1 : 0x30 ≤ vkey ∧ vkey ≤ 0x39
  · simp [h1]
  · by_cases h2 : 0x41 ≤ vkey ∧ vkey ≤ 0x5A
    · simp [h1, h2]
    · simp only [h1, h2, if_false, not_false_eq_true, true_and, Option.map_eq_none',
        List.find?_eq_none, decide_eq_true_eq, List.mem_map, not_exists, not_and]

theorem table_names_ne_nil : ∀ pair ∈ vkeyNamePairs, pair.2 ≠ [] := by decide

theorem keyName_ne_nil (vkey : Int) (name : wstring) (h : keyName vkey = some name) :
    name ≠ [] := by
  unfold keyName at h
  split_ifs at h with h1 h2
  · cases h; simp
  · cases h; simp
  · cases hf : vkeyNamePairs.find? (fun pair => pair.1 = vkey) with
    | none => simp [hf] at h
    | some pair =>
      rw [hf] at h
      cases h
      exact table_names_ne_nil pair (List.mem_of_find?_eq_some hf)

/-- C5 (empty result).  `ToString` returns the empty string exactly when the
key code is unresolvable: not a digit code, not an uppercase-letter code and
not the code of any table entry.  This holds for every value of the modifier
flags, so no modifier text alone is ever returned; in every other case the
result is non-empty.  The chord with no modifiers and code 0 formats to the
empty string. -/
theorem toString_eq_empty_iff :
    (∀ c : KeyChord,
      ToString c = L "" ↔
        ¬ (0x30 ≤ c._vkey ∧ c._vkey ≤ 0x39) ∧ ¬ (0x41 ≤ c._vkey ∧ c._vkey ≤ 0x5A) ∧
          c._vkey ∉ vkeyNamePairs.map Prod.fst) ∧
    ToString ⟨KeyModifiers.None, 0⟩ = L "" := by
  refine ⟨fun c => ?_, by decide⟩
  rw [← keyName_eq_none_iff, ToString_eq, L_empty_eq]
  cases hk : keyName c._vkey with
  | none => simp
  | some name =>
    have := keyName_ne_nil _ _ hk
    simp [this]

/-! ## Table names the parser cannot return -/

set_option maxRecDepth 100000 in
theorem table_code_facts : ∀ pair ∈ vkeyNamePairs,
    pair.1 ∉ [VK_ADD, VK_OEM_PLUS, VK_OEM_MINUS, VK_OEM_PERIOD] →
      ((0x2B ∉ pair.2 ∧ WEOF ∉ pair.2) ∧ pair.2 ≠ [] ∧ ¬ isModifierKey pair.2 ∧
        findKey pair.2 = some pair.1) := by
  decide

theorem keyName_findKey (vkey : Int) (name : wstring) (h : keyName vkey = some name)
    (hv : vkey ∉ [VK_ADD, VK_OEM_PLUS, VK_OEM_MINUS, VK_OEM_PERIOD]) :
    (0x2B ∉ name ∧ WEOF ∉ name) ∧ name ≠ [] ∧ ¬ isModifierKey name ∧
      findKey name = some vkey := by
  unfold keyName at h
  split_ifs at h with h1 h2
  · cases h
    have hr : 0x30 ≤ vkey.toNat ∧ vkey.toNat ≤ 0x39 := by omega
    have e : ((vkey.toNat : Nat) : Int) = vkey := by omega
    refine ⟨?_, by simp, ?_, ?_⟩
    · simp only [List.mem_singleton, WEOF]; omega
    · simp [isModifierKey, CTRL_KEY_eq, ALT_KEY_eq, SHIFT_KEY_eq]
    · simp [findKey, quickLookup, hr, e]
  · cases h
    have hr : 0x61 ≤ (vkey + 0x20).toNat ∧ (vkey + 0x20).toNat ≤ 0x7A := by omega
    have hn : ¬ (0x30 ≤ (vkey + 0x20).toNat ∧ (vkey + 0x20).toNat ≤ 0x39) := by omega
    have e : (((vkey + 0x20).toNat : Nat) : Int) - 0x20 = vkey := by omega
    refine ⟨?_, by simp, ?_, ?_⟩
    · simp only [List.mem_singleton, WEOF]; omega
    · simp [isModifierKey, CTRL_KEY_eq, ALT_KEY_eq, SHIFT_KEY_eq]
    · simp only [findKey, quickLookup, hn, hr, if_false, and_self, if_true, e]
  · cases hf : vkeyNamePairs.find? (fun pair => pair.1 = vkey) with
    | none => simp [hf] at h
    | some pair =>
      rw [hf] at h
      cases h
      have hp := List.mem_of_find?_eq_some hf
      have hc : pair.1 = vkey := by simpa using List.find?_some hf
      rw [← hc] at hv ⊢
      exact table_code_facts pair hp hv

theorem ofBools_isFlagSet : ∀ m : Nat, m < 8 →
    (ofBools (WI_IsFlagSet m KeyModifiers.Ctrl) (WI_IsFlagSet m KeyModifiers.Alt)
      (WI_IsFlagSet m KeyModifiers.Shift) 0)._modifiers = m := by
  decide

/-- The value round trip away from the four shadowed codes: a chord whose
modifiers use only the three flags and whose code resolves to a name that is
not shadowed parses back from its own serialization. -/
theorem FromString_ToString_unshadowed (c : KeyChord) (hm : c._modifiers < 8)
    (hne : ToString c ≠ L "")
    (hv : c._vkey ∉ [VK_ADD, VK_OEM_PLUS, VK_OEM_MINUS, VK_OEM_PERIOD]) :
    FromString (ToString c) = .ok c := by
  rw [ToString_eq] at hne ⊢
  cases hk : keyName c._vkey with
  | none => rw [hk] at hne; simp [L_empty_eq] at hne
  | some name =>
    obtain ⟨h1, h2, h3, h4⟩ := keyName_findKey _ _ hk hv
    simp only
    rw [modifierBuffer_eq, FromString_modifierText_key _ _ _ name h1 h2 h3, h4]
    have e := ofBools_isFlagSet c._modifiers hm
    obtain ⟨m, v⟩ := c
    simp only [ofBools] at e ⊢
    simp only [e]

/-- C2 (value round trip) evaluated where it fails.  The chords with no
modifiers and the codes `VK_ADD`, `VK_OEM_PLUS` format to `"+"`, which
`FromString` rejects; the chords with the codes `VK_OEM_MINUS`,
`VK_OEM_PERIOD` format to `"-"` and `"."`, which parse to the different codes
`VK_SUBTRACT` and `VK_DECIMAL`. -/
theorem fromString_toString_shadowed_codes :
    ToString ⟨KeyModifiers.None, VK_ADD⟩ = L "+" ∧
    ToString ⟨KeyModifiers.None, VK_OEM_PLUS⟩ = L "+" ∧
    FromString (L "+") = .error hresult.invalid_argument ∧
    ToString ⟨KeyModifiers.None, VK_OEM_MINUS⟩ = L "-" ∧
    FromString (L "-") = .ok ⟨KeyModifiers.None, VK_SUBTRACT⟩ ∧
    ToString ⟨KeyModifiers.None, VK_OEM_PERIOD⟩ = L "." ∧
    FromString (L ".") = .ok ⟨KeyModifiers.None, VK_DECIMAL⟩ ∧
    VK_SUBTRACT ≠ VK_OEM_MINUS ∧ VK_DECIMAL ≠ VK_OEM_PERIOD := by
  decide

/-- C4 (documented format is accepted) evaluated where it fails.  The name
`"+"` is listed in the table, yet with every choice of the leading modifiers
`FromString` rejects the text: the splitter takes the `+` of the name for a
delimiter and the key token that is left is empty.  Every other table name is
accepted behind every choice of the leading modifiers, with exactly the chosen
modifiers and the code of the first table entry carrying the name. -/
theorem fromString_rejects_plus_name :
    L "+" ∈ tableNames ∧
    searchName (L "+") vkeyNamePairs = some VK_ADD ∧
    (∀ ctrl alt shift : Bool,
      FromString (modifierText ctrl alt shift ++ L "+") = .error hresult.invalid_argument ∧
      splitParts (modifierText ctrl alt shift ++ L "+") =
        modifierTokens ctrl alt shift ++ [L ""]) ∧
    (∀ name ∈ tableNames, name ≠ L "+" → ∀ ctrl alt shift : Bool,
      ∃ vkey, searchName name vkeyNamePairs = some vkey ∧
        FromString (modifierText ctrl alt shift ++ name) = .ok (ofBools ctrl alt shift vkey)) := by
  refine ⟨by decide, by decide, by decide, ?_⟩
  intro name hmem hplus ctrl alt shift
  obtain ⟨pair, hp, rfl⟩ := List.mem_map.1 hmem
  obtain ⟨h1, h2, h3, hq, hk⟩ := table_name_facts pair hp hplus
  have hf : findKey pair.2 = searchName pair.2 vkeyNamePairs := by
    simp only [findKey, hq]
  rw [FromString_modifierText_key ctrl alt shift pair.2 h1 h2 h3, hf]
  cases hs : searchName pair.2 vkeyNamePairs with
  | none => rw [hf, hs] at hk; cases hk
  | some vkey => exact ⟨vkey, rfl, rfl⟩

/-! ## Accumulated modifiers -/

theorem ofBools_lor : ∀ c a s c2 a2 s2 : Bool,
    (ofBools c a s 0)._modifiers ||| (ofBools c2 a2 s2 0)._modifiers =
      (ofBools (c || c2) (a || a2) (s || s2) 0)._modifiers := by
  decide

theorem modifierFlags_cons (part : wstring) (rest : List wstring) :
    modifierFlags (part :: rest) = modifierFlags [part] ||| modifierFlags rest := by
  unfold modifierFlags
  rw [ofBools_lor]
  simp only [List.mem_cons, List.mem_singleton, List.not_mem_nil, or_false, Bool.decide_or]

theorem modifierFlags_nil : modifierFlags [] = 0 := by decide

theorem modifierFlags_of_not_modifier (part : wstring) (h : ¬ isModifierKey part) :
    modifierFlags [part] = 0 := by
  unfold isModifierKey at h
  have h1 : ¬ CTRL_KEY = part := fun e => h (Or.inl e.symm)
  have h2 : ¬ ALT_KEY = part := fun e => h (Or.inr (Or.inl e.symm))
  have h3 : ¬ SHIFT_KEY = part := fun e => h (Or.inr (Or.inr e.symm))
  simp [modifierFlags, h1, h2, h3, ofBools, KeyModifiers.None]

theorem parsePart_modifiers (st st2 : KeyModifiers × Int) (part : wstring)
    (h : parsePart st part = .ok st2) : st2.1 = st.1 ||| modifierFlags [part] := by
  by_cases hm : isModifierKey part
  · have f1 : modifierFlags [CTRL_KEY] = KeyModifiers.Ctrl := by decide
    have f2 : modifierFlags [ALT_KEY] = KeyModifiers.Alt := by decide
    have f3 : modifierFlags [SHIFT_KEY] = KeyModifiers.Shift := by decide
    unfold parsePart at h
    split_ifs at h with h1 h2 h3
    · cases h; rw [h1, f1]
    · cases h; rw [h2, f2]
    · cases h; rw [h3, f3]
    · rcases hm with e | e | e <;> contradiction
  · rw [parsePart_key st part hm] at h
    rw [modifierFlags_of_not_modifier part hm]
    cases hf : findKey part with
    | none => rw [hf] at h; cases h
    | some vkey => rw [hf] at h; cases h; simp

theorem parseParts_modifiers (parts : List wstring) (st st2 : KeyModifiers × Int)
    (h : parseParts parts st = .ok st2) : st2.1 = st.1 ||| modifierFlags parts := by
  induction parts generalizing st with
  | nil =>
    simp only [parseParts, Except.ok.injEq] at h
    rw [← h, modifierFlags_nil]
    simp
  | cons part rest ih =>
    unfold parseParts at h
    cases hp : parsePart st part with
    | error e => rw [hp] at h; cases h
    | ok st1 =>
      rw [hp] at h
      rw [ih st1 h, parsePart_modifiers st st1 part hp, modifierFlags_cons part rest,
        Nat.lor_assoc]

theorem FromString_ok_iff (hstr : wstring) (c : KeyChord) :
    FromString hstr = .ok c ↔
      (splitParts hstr).length ≤ 4 ∧
        parseParts (splitParts hstr) (KeyModifiers.None, 0) = .ok (c._modifiers, c._vkey) := by
  unfold FromString
  by_cases hlen : (splitParts hstr).length > 4
  · have : ¬ (splitParts hstr).length ≤ 4 := by omega
    simp [hlen, this]
  · have hle : (splitParts hstr).length ≤ 4 := by omega
    simp only [hlen, if_false, hle, true_and]
    cases parseParts (splitParts hstr) (KeyModifiers.None, 0) with
    | error e => simp
    | ok st =>
      obtain ⟨m, v⟩ := st
      obtain ⟨m2, v2⟩ := c
      simp

theorem FromString_modifiers (hstr : wstring) (c : KeyChord) (h : FromString hstr = .ok c) :
    c._modifiers = modifierFlags (splitParts hstr) := by
  have h2 := parseParts_modifiers _ _ _ ((FromString_ok_iff hstr c).1 h).2
  simpa [KeyModifiers.None] using h2

theorem isFlagSet_ofBools : ∀ c a s : Bool,
    WI_IsFlagSet (ofBools c a s 0)._modifiers KeyModifiers.Ctrl = c ∧
    WI_IsFlagSet (ofBools c a s 0)._modifiers KeyModifiers.Alt = a ∧
    WI_IsFlagSet (ofBools c a s 0)._modifiers KeyModifiers.Shift = s := by
  decide

/-! ## The key code left by the loop -/

theorem parseParts_append (xs ys : List wstring) (st : KeyModifiers × Int) :
    parseParts (xs ++ ys) st =
      match parseParts xs st with
      | .ok st1 => parseParts ys st1
      | .error e => .error e := by
  induction xs generalizing st with
  | nil => simp [parseParts]
  | cons part rest ih =>
    simp only [List.cons_append, parseParts]
    cases parsePart st part with
    | error e => rfl
    | ok st1 => exact ih st1

theorem parseParts_vkey (parts : List wstring) (st st2 : KeyModifiers × Int)
    (h : parseParts parts st = .ok st2) :
    (∀ part, (parts.filter (fun p => ¬ isModifierKey p)).getLast? = some part →
        findKey part = some st2.2) ∧
      (parts.filter (fun p => ¬ isModifierKey p) = [] → st2.2 = st.2) := by
  induction parts using List.reverseRecOn generalizing st2 with
  | nil =>
    simp only [parseParts, Except.ok.injEq] at h
    simp [h]
  | append_singleton xs last ih =>
    rw [parseParts_append] at h
    cases hx : parseParts xs st with
    | error e => rw [hx] at h; cases h
    | ok st1 =>
      rw [hx] at h
      simp only [parseParts] at h
      cases hp : parsePart st1 last with
      | error e => rw [hp] at h; cases h
      | ok st3 =>
        rw [hp] at h
        simp only [Except.ok.injEq] at h
        subst h
        obtain ⟨ih1, ih2⟩ := ih st1 hx
        by_cases hm : isModifierKey last
        · obtain ⟨m, e⟩ := parsePart_modifier st1 last hm
          rw [e] at hp
          cases hp
          simpa [List.filter_append, hm] using And.intro ih1 ih2
        · rw [parsePart_key st1 last hm] at hp
          cases hf : findKey last with
          | none => rw [hf] at hp; cases hp
          | some vkey =>
            rw [hf] at hp
            cases hp
            simp [List.filter_append, hm, hf]

theorem FromString_vkey_congr (hstr1 hstr2 : wstring) (c1 c2 : KeyChord)
    (h1 : FromString hstr1 = .ok c1) (h2 : FromString hstr2 = .ok c2)
    (e : (splitParts hstr1).filter (fun p => ¬ isModifierKey p) =
      (splitParts hstr2).filter (fun p => ¬ isModifierKey p)) :
    c1._vkey = c2._vkey := by
  obtain ⟨a1, b1⟩ := parseParts_vkey _ _ _ ((FromString_ok_iff hstr1 c1).1 h1).2
  obtain ⟨a2, b2⟩ := parseParts_vkey _ _ _ ((FromString_ok_iff hstr2 c2).1 h2).2
  simp only at a1 b1 a2 b2
  cases hl : ((splitParts hstr2).filter (fun p => ¬ isModifierKey p)).getLast? with
  | none =>
    have hn : (splitParts hstr2).filter (fun p => ¬ isModifierKey p) = [] := by
      simpa using hl
    rw [b1 (e.trans hn), b2 hn]
  | some part =>
    have k1 := a1 part (by rw [e]; exact hl)
    have k2 := a2 part hl
    rw [k1] at k2
    exact Option.some.inj k2

/-- C7 (modifier accumulation).  When `FromString` succeeds, the returned
modifiers hold Ctrl, Alt, Shift exactly when the keyword `"ctrl"`, `"alt"`,
`"shift"` occurs among the tokens; hence two accepted texts in which the same
keywords occur, in whatever order and however often, give the same modifiers. -/
theorem fromString_modifiers_iff (hstr : wstring) (c : KeyChord)
    (h : FromString hstr = .ok c) :
    (WI_IsFlagSet c._modifiers KeyModifiers.Ctrl = true ↔ CTRL_KEY ∈ splitParts hstr) ∧
    (WI_IsFlagSet c._modifiers KeyModifiers.Alt = true ↔ ALT_KEY ∈ splitParts hstr) ∧
    (WI_IsFlagSet c._modifiers KeyModifiers.Shift = true ↔ SHIFT_KEY ∈ splitParts hstr) ∧
    (∀ (hstr2 : wstring) (c2 : KeyChord), FromString hstr2 = .ok c2 →
      (CTRL_KEY ∈ splitParts hstr2 ↔ CTRL_KEY ∈ splitParts hstr) →
      (ALT_KEY ∈ splitParts hstr2 ↔ ALT_KEY ∈ splitParts hstr) →
      (SHIFT_KEY ∈ splitParts hstr2 ↔ SHIFT_KEY ∈ splitParts hstr) →
      c2._modifiers = c._modifiers ∧
        ((splitParts hstr2).filter (fun p => ¬ isModifierKey p) =
            (splitParts hstr).filter (fun p => ¬ isModifierKey p) → c2 = c)) := by
  have hm := FromString_modifiers hstr c h
  have hf := isFlagSet_ofBools (decide (CTRL_KEY ∈ splitParts hstr))
    (decide (ALT_KEY ∈ splitParts hstr)) (decide (SHIFT_KEY ∈ splitParts hstr))
  rw [← modifierFlags, ← hm] at hf
  obtain ⟨f1, f2, f3⟩ := hf
  refine ⟨by rw [f1]; simp, by rw [f2]; simp, by rw [f3]; simp, ?_⟩
  intro hstr2 c2 h2 e1 e2 e3
  have hmod : c2._modifiers = c._modifiers := by
    rw [hm, FromString_modifiers hstr2 c2 h2]
    unfold modifierFlags
    simp only [e1, e2, e3]
  refine ⟨hmod, fun e4 => ?_⟩
  have hv : c2._vkey = c._vkey := FromString_vkey_congr hstr2 hstr c2 c h2 h e4
  obtain ⟨m, v⟩ := c
  obtain ⟨m2, v2⟩ := c2
  simp only at hmod hv
  rw [hmod, hv]

/-- C7 at the text `"ctrl+ctrl+x"`: the modifiers are Ctrl alone, the code is
that of `X`, and the text `"ctrl+x"` gives the same modifiers. -/
theorem fromString_modifiers_iff_witness :
    FromString (L "ctrl+ctrl+x") = .ok ⟨KeyModifiers.Ctrl, 0x58⟩ ∧
    splitParts (L "ctrl+ctrl+x") = [L "ctrl", L "ctrl", L "x"] ∧
    WI_IsFlagSet KeyModifiers.Ctrl KeyModifiers.Ctrl = true ∧
    WI_IsFlagSet KeyModifiers.Ctrl KeyModifiers.Alt = false ∧
    WI_IsFlagSet KeyModifiers.Ctrl KeyModifiers.Shift = false ∧
    (∀ c2 : KeyChord, FromString (L "ctrl+x") = .ok c2 → c2 = ⟨KeyModifiers.Ctrl, 0x58⟩) :=
  ⟨by decide, by decide, by decide, by decide, by decide, fun c2 h2 =>
    ((fromString_modifiers_iff (L "ctrl+ctrl+x") ⟨KeyModifiers.Ctrl, 0x58⟩ (by decide)).2.2.2
      (L "ctrl+x") c2 h2 (by decide) (by decide) (by decide)).2 (by decide)⟩

/-- C8 (last key token wins).  When `FromString` succeeds on a text that has a
non-modifier token, the returned key code is the one the lookup resolves for
the last non-modifier token, whatever tokens precede it. -/
theorem fromString_last_key_wins (hstr : wstring) (c : KeyChord) (part : wstring)
    (h : FromString hstr = .ok c)
    (hlast : ((splitParts hstr).filter (fun p => ¬ isModifierKey p)).getLast? = some part) :
    findKey part = some c._vkey := by
  have h2 := ((FromString_ok_iff hstr c).1 h).2
  exact (parseParts_vkey _ _ _ h2).1 part hlast

/-- C8 at the texts `"a+b"` and `"a+ctrl+b+shift"`: both are accepted and
yield the code of `B`, the last key token. -/
theorem fromString_last_key_wins_witness :
    FromString (L "a+b") = .ok ⟨KeyModifiers.None, 0x42⟩ ∧
    findKey (L "b") = some 0x42 ∧
    FromString (L "a+ctrl+b+shift") = .ok ⟨KeyModifiers.Ctrl ||| KeyModifiers.Shift, 0x42⟩ :=
  ⟨by decide,
    fromString_last_key_wins (L "a+b") ⟨KeyModifiers.None, 0x42⟩ (L "b") (by decide)
      (by decide),
    by decide⟩

/-! ## Texts built from modifier tokens -/

theorem modifierKey_no_delim (part : wstring) (h : isModifierKey part) :
    0x2B ∉ part ∧ WEOF ∉ part := by
  rcases h with e | e | e <;> subst e <;> decide

theorem splitParts_joinParts (parts : List wstring) (rest : wstring)
    (h : ∀ part ∈ parts, 0x2B ∉ part ∧ WEOF ∉ part) :
    splitParts (joinParts parts ++ rest) = parts ++ splitParts rest := by
  induction parts with
  | nil => simp [joinParts]
  | cons part more ih =>
    have h1 : 0x2B ∉ part ∧ WEOF ∉ part := h part (by simp)
    have h2 : ∀ p ∈ more, 0x2B ∉ p ∧ WEOF ∉ p := fun p hp => h p (by simp [hp])
    have e : joinParts (part :: more) ++ rest = part ++ 0x2B :: (joinParts more ++ rest) := by
      simp [joinParts, L_plus_eq]
    rw [e, splitParts_token_delim _ _ h1, ih h2]
    rfl

theorem parseParts_all_modifiers (mods : List wstring) (st : KeyModifiers × Int)
    (h : ∀ part ∈ mods, isModifierKey part) :
    parseParts mods st = .ok (st.1 ||| modifierFlags mods, st.2) := by
  induction mods generalizing st with
  | nil => simp [parseParts, modifierFlags_nil]
  | cons part more ih =>
    obtain ⟨m, e⟩ := parsePart_modifier st part (h part (by simp))
    have hm := parsePart_modifiers st _ part e
    simp only at hm
    rw [parseParts, e]
    simp only
    rw [ih _ (fun p hp => h p (by simp [hp])), hm, modifierFlags_cons part more, Nat.lor_assoc]

/-- Parsing any sequence of at most three modifier tokens followed by one key
token free of the delimiter and of `WEOF`. -/
theorem FromString_joinParts_key (mods : List wstring) (key : wstring)
    (hmods : ∀ part ∈ mods, isModifierKey part) (hlen : mods.length ≤ 3)
    (h1 : 0x2B ∉ key ∧ WEOF ∉ key) (h2 : key ≠ []) (h3 : ¬ isModifierKey key) :
    FromString (joinParts mods ++ key) =
      match findKey key with
      | some vkey => .ok ⟨modifierFlags mods, vkey⟩
      | none => .error hresult.invalid_argument := by
  have hs : splitParts (joinParts mods ++ key) = mods ++ [key] := by
    rw [splitParts_joinParts mods key (fun p hp => modifierKey_no_delim p (hmods p hp)),
      splitParts_last_token key h1 h2]
  have hl : ¬ (mods ++ [key]).length > 4 := by
    simp only [List.length_append, List.length_singleton]
    omega
  unfold FromString
  simp only [hs, hl, if_false, parseParts_append, parseParts_all_modifiers mods _ hmods,
    parseParts, parsePart_key _ key h3]
  cases findKey key <;> simp [KeyModifiers.None]

theorem findKey_digit_or_upper (wch : Nat)
    (h : 0x30 ≤ wch ∧ wch ≤ 0x39 ∨ 0x41 ≤ wch ∧ wch ≤ 0x5A) :
    findKey [wch] = some (wch : Int) := by
  rcases h with h | h
  · simp [findKey, quickLookup, h]
  · have n1 : ¬ (0x30 ≤ wch ∧ wch ≤ 0x39) := by omega
    have n2 : ¬ (0x61 ≤ wch ∧ wch ≤ 0x7A) := by omega
    simp [findKey, quickLookup, h, n1, n2]

theorem findKey_lower (wch : Nat) (h : 0x61 ≤ wch ∧ wch ≤ 0x7A) :
    findKey [wch] = some ((wch : Int) - 0x20) := by
  have n1 : ¬ (0x30 ≤ wch ∧ wch ≤ 0x39) := by omega
  simp [findKey, quickLookup, h, n1]

theorem single_char_token (wch : Nat)
    (h : 0x30 ≤ wch ∧ wch ≤ 0x39 ∨ 0x61 ≤ wch ∧ wch ≤ 0x7A ∨ 0x41 ≤ wch ∧ wch ≤ 0x5A) :
    (0x2B ∉ [wch] ∧ WEOF ∉ [wch]) ∧ [wch] ≠ [] ∧ ¬ isModifierKey [wch] := by
  refine ⟨?_, by simp, ?_⟩
  · simp only [List.mem_singleton, WEOF]; omega
  · simp [isModifierKey, CTRL_KEY_eq, ALT_KEY_eq, SHIFT_KEY_eq]

/-- C9 (quick path).  For every sequence of at most three modifier tokens in
front of a single-character key token, `FromString` returns the accumulated
modifiers together with the code of the character itself when it is a digit or
an uppercase letter, and with that code minus `0x20` when it is a lowercase
letter; so the lowercase and the uppercase spelling of a letter parse to the
same chord. -/
theorem fromString_quick_path (mods : List wstring) (wch : Nat)
    (hmods : ∀ part ∈ mods, isModifierKey part) (hlen : mods.length ≤ 3) :
    (0x30 ≤ wch ∧ wch ≤ 0x39 ∨ 0x41 ≤ wch ∧ wch ≤ 0x5A →
      FromString (joinParts mods ++ [wch]) = .ok ⟨modifierFlags mods, (wch : Int)⟩) ∧
    (0x61 ≤ wch ∧ wch ≤ 0x7A →
      FromString (joinParts mods ++ [wch]) = .ok ⟨modifierFlags mods, (wch : Int) - 0x20⟩ ∧
      FromString (joinParts mods ++ [wch - 0x20]) = FromString (joinParts mods ++ [wch])) := by
  constructor
  · intro h
    obtain ⟨a, b, c⟩ := single_char_token wch (by omega)
    rw [FromString_joinParts_key mods [wch] hmods hlen a b c, findKey_digit_or_upper wch h]
  · intro h
    obtain ⟨a, b, c⟩ := single_char_token wch (by omega)
    obtain ⟨a2, b2, c2⟩ := single_char_token (wch - 0x20) (by omega)
    rw [FromString_joinParts_key mods [wch] hmods hlen a b c, findKey_lower wch h,
      FromString_joinParts_key mods [wch - 0x20] hmods hlen a2 b2 c2,
      findKey_digit_or_upper (wch - 0x20) (by omega)]
    have e : ((wch - 0x20 : Nat) : Int) = (wch : Int) - 0x20 := by omega
    simp [e]

/-- C9 at the text `"ctrl+c"`: the modifiers are Ctrl alone and the code is
that of `C`, as for the text `"ctrl+C"`. -/
theorem fromString_quick_path_witness :
    joinParts [CTRL_KEY] ++ [0x63] = L "ctrl+c" ∧
    joinParts [CTRL_KEY] ++ [0x63 - 0x20] = L "ctrl+C" ∧
    modifierFlags [CTRL_KEY] = KeyModifiers.Ctrl ∧
    FromString (joinParts [CTRL_KEY] ++ [0x63]) = .ok ⟨modifierFlags [CTRL_KEY], 0x43⟩ ∧
    FromString (joinParts [CTRL_KEY] ++ [0x63 - 0x20]) =
      FromString (joinParts [CTRL_KEY] ++ [0x63]) :=
  ⟨by decide, by decide, by decide,
    ((fromString_quick_path [CTRL_KEY] 0x63 (by decide) (by decide)).2 (by decide)).1,
    ((fromString_quick_path [CTRL_KEY] 0x63 (by decide) (by decide)).2 (by decide)).2⟩

/-! ## Letter case of modifier keywords -/

theorem table_names_lowerCase : ∀ pair ∈ vkeyNamePairs,
    pair.2.map lowerCase = pair.2 ∧ ¬ isModifierKey pair.2 := by
  decide

theorem modifierKey_length (part : wstring) (h : isModifierKey part) : 3 ≤ part.length := by
  rcases h with e | e | e <;> subst e <;> decide

theorem findKey_miscased_modifier (part : wstring)
    (hcase : isModifierKey (part.map lowerCase)) (hne : ¬ isModifierKey part) :
    findKey part = none := by
  rw [findKey_eq_none_iff]
  rintro (⟨wch, rfl, _⟩ | hmem)
  · have := modifierKey_length _ hcase
    simp at this
  · obtain ⟨pair, hp, rfl⟩ := List.mem_map.1 hmem
    obtain ⟨e, _⟩ := table_names_lowerCase pair hp
    rw [e] at hcase
    exact hne hcase

/-- C10 (case sensitivity of modifiers).  A token that equals `"ctrl"`,
`"alt"` or `"shift"` up to letter case without being the exact lowercase
spelling is not taken for a modifier: the loop body throws on it, and every
text that has it among its tokens makes `FromString` fail with the
invalid-argument error. -/
theorem fromString_rejects_miscased_modifier (hstr part : wstring)
    (hcase : isModifierKey (part.map lowerCase)) (hne : ¬ isModifierKey part)
    (hmem : part ∈ splitParts hstr) :
    FromString hstr = .error hresult.invalid_argument ∧
      ∀ st, parsePart st part = .error hresult.invalid_argument := by
  have hf := findKey_miscased_modifier part hcase hne
  constructor
  · rw [FromString_error_iff]
    exact Or.inr ⟨part, hmem, hne, hf⟩
  · intro st
    rw [parsePart_key st part hne, hf]

/-- C10 at the text `"Ctrl+c"`, whose first token is `"Ctrl"`. -/
theorem fromString_rejects_miscased_modifier_witness :
    L "Ctrl" ∈ splitParts (L "Ctrl+c") ∧
    (L "Ctrl").map lowerCase = CTRL_KEY ∧
    FromString (L "Ctrl+c") = .error hresult.invalid_argument :=
  ⟨by decide, by decide,
    (fromString_rejects_miscased_modifier (L "Ctrl+c") (L "Ctrl") (by decide) (by decide)
      (by decide)).1⟩

/-! ## Canonical output -/

theorem keyToken_facts (key : wstring) (hkey : isKeyToken key) (hplus : key ≠ L "+") :
    (0x2B ∉ key ∧ WEOF ∉ key) ∧ key ≠ [] ∧ ¬ isModifierKey key ∧
      ∃ vkey name, findKey key = some vkey ∧ keyName vkey = some name := by
  rcases hkey with ⟨wch, rfl, hr⟩ | hmem
  · obtain ⟨a, b, c⟩ := single_char_token wch hr
    refine ⟨a, b, c, ?_⟩
    rcases hr with hd | hl | hu
    · exact ⟨_, [wch], findKey_digit_or_upper wch (Or.inl hd), by
        have hd2 : (0x30 : Int) ≤ wch ∧ (wch : Int) ≤ 0x39 := by omega
        simp [keyName, hd2]⟩
    · exact ⟨_, [wch], findKey_lower wch hl, by
        have k1 : ¬ ((0x30 : Int) ≤ (wch : Int) - 0x20 ∧ (wch : Int) - 0x20 ≤ 0x39) := by omega
        have k2 : (0x41 : Int) ≤ (wch : Int) - 0x20 ∧ (wch : Int) - 0x20 ≤ 0x5A := by omega
        rw [keyName, if_neg k1, if_pos k2]
        simp⟩
    · exact ⟨_, [wch + 0x20], findKey_digit_or_upper wch (Or.inr hu), by
        have k1 : ¬ ((0x30 : Int) ≤ (wch : Int) ∧ (wch : Int) ≤ 0x39) := by omega
        have k2 : (0x41 : Int) ≤ (wch : Int) ∧ (wch : Int) ≤ 0x5A := by omega
        rw [keyName, if_neg k1, if_pos k2]
        have e : ((wch : Int) + 0x20).toNat = wch + 0x20 := by omega
        rw [e]⟩
  · obtain ⟨pair, hp, rfl⟩ := List.mem_map.1 hmem
    obtain ⟨a, b, c, _, e⟩ := table_name_facts pair hp hplus
    refine ⟨a, b, c, ?_⟩
    cases hf : findKey pair.2 with
    | none => rw [hf] at e; cases e
    | some vkey => exact ⟨vkey, pair.2, rfl, by simpa [hf] using e⟩

theorem modifierFlags_perm (toks : List wstring)
    (hperm : toks.Perm [CTRL_KEY, ALT_KEY, SHIFT_KEY]) :
    modifierFlags toks = (ofBools true true true 0)._modifiers := by
  have h1 : CTRL_KEY ∈ toks := hperm.mem_iff.2 (by simp)
  have h2 : ALT_KEY ∈ toks := hperm.mem_iff.2 (by simp)
  have h3 : SHIFT_KEY ∈ toks := hperm.mem_iff.2 (by simp)
  simp [modifierFlags, h1, h2, h3]

theorem FromString_perm_key (toks : List wstring) (key : wstring)
    (hperm : toks.Perm [CTRL_KEY, ALT_KEY, SHIFT_KEY]) (hkey : isKeyToken key)
    (hplus : key ≠ L "+") :
    ∃ vkey name, FromString (joinParts toks ++ key) = .ok (ofBools true true true vkey) ∧
      keyName vkey = some name := by
  have hmods : ∀ part ∈ toks, isModifierKey part := by
    intro part hp
    have := hperm.mem_iff.1 hp
    simpa [isModifierKey] using this
  have hlen : toks.length ≤ 3 := by rw [hperm.length_eq]; decide
  obtain ⟨h1, h2, h3, vkey, name, hf, hn⟩ := keyToken_facts key hkey hplus
  refine ⟨vkey, name, ?_, hn⟩
  rw [FromString_joinParts_key toks key hmods hlen h1 h2 h3, hf, modifierFlags_perm toks hperm]
  rfl

theorem FromString_perm_plus (toks : List wstring)
    (hperm : toks.Perm [CTRL_KEY, ALT_KEY, SHIFT_KEY]) :
    FromString (joinParts toks ++ L "+") = .error hresult.invalid_argument := by
  have hmods : ∀ part ∈ toks, 0x2B ∉ part ∧ WEOF ∉ part := by
    intro part hp
    have := hperm.mem_iff.1 hp
    exact modifierKey_no_delim part (by simpa [isModifierKey] using this)
  have hs : splitParts (L "+") = [[]] := by decide
  rw [FromString_error_iff, splitParts_joinParts toks _ hmods, hs]
  exact Or.inr ⟨[], by simp, by decide, by decide⟩

/-- C6 (canonical output).  For every chord whose key code resolves,
`ToString` returns `ctrl+` if Ctrl is set, then `alt+` if Alt is set, then
`shift+` if Shift is set, then the key name (the digit, the lowercase letter,
or the name of the first table entry with the code).  The result depends only
on the three flag values and the code.  For every order of the three modifier
tokens in front of a key token, whenever the text parses the formatted chord
starts with `ctrl+alt+shift+` followed by the key name, and it does parse
unless the key token is the name `+`.  The text `"shift+ctrl+alt+1"` formats
to `"ctrl+alt+shift+1"`. -/
theorem toString_canonical :
    (∀ (c : KeyChord) (name : wstring), keyName c._vkey = some name →
      ToString c =
        modifierText (WI_IsFlagSet c._modifiers KeyModifiers.Ctrl)
          (WI_IsFlagSet c._modifiers KeyModifiers.Alt)
          (WI_IsFlagSet c._modifiers KeyModifiers.Shift) ++ name) ∧
    (∀ c1 c2 : KeyChord,
      WI_IsFlagSet c1._modifiers KeyModifiers.Ctrl = WI_IsFlagSet c2._modifiers KeyModifiers.Ctrl →
      WI_IsFlagSet c1._modifiers KeyModifiers.Alt = WI_IsFlagSet c2._modifiers KeyModifiers.Alt →
      WI_IsFlagSet c1._modifiers KeyModifiers.Shift =
        WI_IsFlagSet c2._modifiers KeyModifiers.Shift →
      c1._vkey = c2._vkey → ToString c1 = ToString c2) ∧
    (∀ (toks : List wstring) (key : wstring) (c : KeyChord),
      toks.Perm [CTRL_KEY, ALT_KEY, SHIFT_KEY] → isKeyToken key →
      FromString (joinParts toks ++ key) = .ok c →
      ∃ name, keyName c._vkey = some name ∧ ToString c = L "ctrl+alt+shift+" ++ name) ∧
    (∀ (toks : List wstring) (key : wstring),
      toks.Perm [CTRL_KEY, ALT_KEY, SHIFT_KEY] → isKeyToken key → key ≠ L "+" →
      ∃ c, FromString (joinParts toks ++ key) = .ok c) ∧
    joinParts [SHIFT_KEY, CTRL_KEY, ALT_KEY] ++ L "1" = L "shift+ctrl+alt+1" ∧
    FromString (L "shift+ctrl+alt+1") =
      .ok ⟨KeyModifiers.Ctrl ||| KeyModifiers.Alt ||| KeyModifiers.Shift, 0x31⟩ ∧
    ToString ⟨KeyModifiers.Ctrl ||| KeyModifiers.Alt ||| KeyModifiers.Shift, 0x31⟩ =
      L "ctrl+alt+shift+1" := by
  refine ⟨?_, ?_, ?_, ?_, by decide, by decide, by decide⟩
  · intro c name hn
    rw [ToString_eq, hn, modifierBuffer_eq]
  · intro c1 c2 e1 e2 e3 e4
    rw [ToString_eq, ToString_eq, modifierBuffer_eq, modifierBuffer_eq, e1, e2, e3, e4]
  · intro toks key c hperm hkey h
    by_cases hplus : key = L "+"
    · subst hplus
      rw [FromString_perm_plus toks hperm] at h
      cases h
    · obtain ⟨vkey, name, hf, hn⟩ := FromString_perm_key toks key hperm hkey hplus
      rw [hf] at h
      simp only [Except.ok.injEq] at h
      subst h
      refine ⟨name, hn, ?_⟩
      rw [ToString_eq]
      simp only [ofBools] at hn ⊢
      rw [hn]
      have hb : modifierBuffer (ofBools true true true 0)._modifiers = L "ctrl+alt+shift+" := by
        decide
      simp only [ofBools] at hb
      rw [hb]
  · intro toks key hperm hkey hplus
    obtain ⟨vkey, name, hf, _⟩ := FromString_perm_key toks key hperm hkey hplus
    exact ⟨_, hf⟩

/-- C6 at the order shift, ctrl, alt in front of the key `1`. -/
theorem toString_canonical_witness :
    ∃ name, keyName (0x31 : Int) = some name ∧
      ToString ⟨KeyModifiers.Ctrl ||| KeyModifiers.Alt ||| KeyModifiers.Shift, 0x31⟩ =
        L "ctrl+alt+shift+" ++ name :=
  toString_canonical.2.2.1 [SHIFT_KEY, CTRL_KEY, ALT_KEY] (L "1")
    ⟨KeyModifiers.Ctrl ||| KeyModifiers.Alt ||| KeyModifiers.Shift, 0x31⟩
    (by decide) (Or.inl ⟨0x31, by decide, by decide⟩) (by decide)

end KeyChord

namespace KeyChord

/-! ## Duplicates in the table -/

/-- C11 (no duplicates in the table) evaluated on the table.  The key codes of
`vkeyNamePairs` are pairwise distinct, but its names are not: `"+"` is the
name of both `VK_ADD` and `VK_OEM_PLUS`, `"-"` of both `VK_SUBTRACT` and
`VK_OEM_MINUS`, `"."` of both `VK_DECIMAL` and `VK_OEM_PERIOD`. -/
theorem vkeyNamePairs_duplicate_names :
    (vkeyNamePairs.map Prod.fst).Nodup ∧
    ¬ (vkeyNamePairs.map Prod.snd).Nodup ∧
    vkeyNamePairs[26]? = some (VK_ADD, L "+") ∧
    vkeyNamePairs[54]? = some (VK_OEM_PLUS, L "+") ∧
    vkeyNamePairs[27]? = some (VK_SUBTRACT, L "-") ∧
    vkeyNamePairs[56]? = some (VK_OEM_MINUS, L "-") ∧
    vkeyNamePairs[28]? = some (VK_DECIMAL, L ".") ∧
    vkeyNamePairs[57]? = some (VK_OEM_PERIOD, L ".") ∧
    (vkeyNamePairs.map Prod.snd).dedup.length + 3 = vkeyNamePairs.length := by
  decide

end KeyChord

namespace KeyChord

/-! ## Construction and accessors -/

theorem ofBools_modifiers_lt : ∀ c a s : Bool, (ofBools c a s 0)._modifiers < 2 ^ 3 := by
  decide

/-- C12 (construction).  For all booleans and every integer key code, the
chord built from three booleans has the key code as given; Ctrl, Alt and Shift
are set in its modifiers exactly when the respective boolean is true; no bit
other than those three is set; and it is the chord the constructor from a
modifier set builds from the union of the chosen flags. -/
theorem ofBools_spec (ctrl alt shift : Bool) (vkey : Int) :
    (ofBools ctrl alt shift vkey).Vkey = vkey ∧
    WI_IsFlagSet (ofBools ctrl alt shift vkey).Modifiers KeyModifiers.Ctrl = ctrl ∧
    WI_IsFlagSet (ofBools ctrl alt shift vkey).Modifiers KeyModifiers.Alt = alt ∧
    WI_IsFlagSet (ofBools ctrl alt shift vkey).Modifiers KeyModifiers.Shift = shift ∧
    (∀ i, 3 ≤ i → (ofBools ctrl alt shift vkey).Modifiers.testBit i = false) ∧
    (ofBools ctrl alt shift vkey).Modifiers &&&
      (KeyModifiers.Ctrl ||| KeyModifiers.Alt ||| KeyModifiers.Shift) =
        (ofBools ctrl alt shift vkey).Modifiers ∧
    ofBools ctrl alt shift vkey =
      ofModifiers
        ((if ctrl then KeyModifiers.Ctrl else KeyModifiers.None) |||
          (if alt then KeyModifiers.Alt else KeyModifiers.None) |||
          (if shift then KeyModifiers.Shift else KeyModifiers.None)) vkey := by
  have hf := isFlagSet_ofBools ctrl alt shift
  have hlt := ofBools_modifiers_lt ctrl alt shift
  have hand : ∀ c a s : Bool,
      (ofBools c a s 0)._modifiers &&&
        (KeyModifiers.Ctrl ||| KeyModifiers.Alt ||| KeyModifiers.Shift) =
          (ofBools c a s 0)._modifiers := by decide
  refine ⟨rfl, hf.1, hf.2.1, hf.2.2, ?_, hand ctrl alt shift, rfl⟩
  intro i hi
  apply Nat.testBit_eq_false_of_lt
  calc (ofBools ctrl alt shift vkey).Modifiers < 2 ^ 3 := hlt
    _ ≤ 2 ^ i := Nat.pow_le_pow_right (by decide) hi

/-- C13 (independent accessors).  Setting the modifiers leaves the key code
as it was and the getter returns the value set; setting the key code leaves
the modifiers as they were and the getter returns the value set; every value
is stored as given. -/
theorem setters_independent (c : KeyChord) (value : KeyModifiers) (vkey : Int) :
    (c.setModifiers value).Modifiers = value ∧
    (c.setModifiers value).Vkey = c.Vkey ∧
    (c.setVkey vkey).Vkey = vkey ∧
    (c.setVkey vkey).Modifiers = c.Modifiers ∧
    c.setModifiers value = ofModifiers value c.Vkey ∧
    c.setVkey vkey = ofModifiers c.Modifiers vkey := by
  exact ⟨rfl, rfl, rfl, rfl, rfl, rfl⟩

end KeyChord

namespace KeyChord

/-! ## Key codes the parser returns -/

theorem getlineLoop_no_delim (wss temp : wstring) (h : 0x2B ∉ temp) :
    ∀ part ∈ getlineLoop wss temp, 0x2B ∉ part := by
  induction wss generalizing temp with
  | nil =>
    intro part hp
    unfold getlineLoop at hp
    split_ifs at hp
    · simp at hp
    · simp only [List.mem_singleton] at hp
      rw [hp]; exact h
  | cons wch rest ih =>
    intro part hp
    by_cases he : wch = WEOF
    · simp only [getlineLoop, he, if_true] at hp
      split_ifs at hp
      · simp at hp
      · simp only [List.mem_singleton] at hp
        rw [hp]; exact h
    · by_cases hw : wch = 0x2B
      · simp only [getlineLoop, he, hw, if_true, if_false] at hp
        rcases List.mem_cons.1 hp with e | hr
        · rw [e]; exact h
        · exact ih [] (by simp) part hr
      · simp only [getlineLoop, he, hw, if_false] at hp
        refine ih (temp ++ [wch]) ?_ part hp
        simp only [List.mem_append, List.mem_singleton, not_or]
        exact ⟨h, fun e => hw e.symm⟩

theorem splitParts_no_delim (wstr : wstring) : ∀ part ∈ splitParts wstr, 0x2B ∉ part :=
  getlineLoop_no_delim wstr [] (by simp)

theorem quickLookup_range (part : wstring) (vkey : Int) (h : quickLookup part = some vkey) :
    0x30 ≤ vkey ∧ vkey ≤ 0x39 ∨ 0x41 ≤ vkey ∧ vkey ≤ 0x5A := by
  match part with
  | [] => simp [quickLookup] at h
  | [wch] =>
    simp only [quickLookup] at h
    split_ifs at h with h1 h2 h3 <;> cases h <;> omega
  | _ :: _ :: _ => simp [quickLookup] at h

theorem searchName_mem (part : wstring) (table : List (Int × wstring)) (vkey : Int)
    (h : searchName part table = some vkey) : part ∈ table.map Prod.snd := by
  by_contra hn
  rw [← searchName_eq_none_iff] at hn
  rw [hn] at h
  cases h

set_option maxRecDepth 100000 in
theorem table_name_unshadowed : ∀ pair ∈ vkeyNamePairs, pair.2 ≠ L "+" →
    findKey pair.2 ∉
      [some VK_ADD, some VK_OEM_PLUS, some VK_OEM_MINUS, some VK_OEM_PERIOD] := by
  decide

theorem findKey_unshadowed (part : wstring) (vkey : Int) (hd : 0x2B ∉ part)
    (h : findKey part = some vkey) :
    vkey ∉ [VK_ADD, VK_OEM_PLUS, VK_OEM_MINUS, VK_OEM_PERIOD] ∧ vkey ≠ 0 ∧
      ∃ name, keyName vkey = some name := by
  cases hq : quickLookup part with
  | some v =>
    have e : v = vkey := by simpa [findKey, hq] using h
    subst e
    have hr := quickLookup_range part v hq
    refine ⟨?_, by omega, ?_⟩
    · simp only [List.mem_cons, List.mem_singleton, List.not_mem_nil, or_false, VK_ADD,
        VK_OEM_PLUS, VK_OEM_MINUS, VK_OEM_PERIOD]
      omega
    · unfold keyName
      split_ifs with h1 h2
      · exact ⟨_, rfl⟩
      · exact ⟨_, rfl⟩
      · omega
  | none =>
    have hs : searchName part vkeyNamePairs = some vkey := by simpa [findKey, hq] using h
    obtain ⟨pair, hp, e⟩ := List.mem_map.1 (searchName_mem part _ vkey hs)
    subst e
    have hplus : pair.2 ≠ L "+" := by
      intro e2
      rw [e2] at hd
      exact hd (by decide)
    have hu := table_name_unshadowed pair hp hplus
    obtain ⟨_, _, _, _, hk⟩ := table_name_facts pair hp hplus
    rw [h] at hu hk
    have hname : keyName vkey = some pair.2 := by simpa using hk
    refine ⟨?_, ?_, _, hname⟩
    · intro hm
      apply hu
      simp only [List.mem_cons, List.mem_singleton, List.not_mem_nil, or_false] at hm ⊢
      rcases hm with e | e | e | e <;> simp [e]
    · intro e0
      rw [e0] at hname
      have h0 : keyName 0 = none := by decide
      rw [h0] at hname
      cases hname

theorem FromString_vkey_cases (hstr : wstring) (c : KeyChord) (h : FromString hstr = .ok c) :
    (c._vkey = 0 ∧ ∀ part ∈ splitParts hstr, isModifierKey part) ∨
      ∃ part ∈ splitParts hstr, ¬ isModifierKey part ∧ findKey part = some c._vkey := by
  obtain ⟨a, b⟩ := parseParts_vkey _ _ _ ((FromString_ok_iff hstr c).1 h).2
  simp only at a b
  cases hl : ((splitParts hstr).filter (fun p => ¬ isModifierKey p)).getLast? with
  | none =>
    have hn : (splitParts hstr).filter (fun p => ¬ isModifierKey p) = [] := by simpa using hl
    refine Or.inl ⟨b hn, fun part hp => ?_⟩
    by_contra hm
    have : part ∈ (splitParts hstr).filter (fun p => ¬ isModifierKey p) := by
      simp [List.mem_filter, hp, hm]
    rw [hn] at this
    cases this
  | some part =>
    have hm := List.mem_of_getLast?_eq_some hl
    simp only [List.mem_filter, decide_eq_true_eq] at hm
    exact Or.inr ⟨part, hm.1, hm.2, a part hl⟩

end KeyChord

namespace KeyChord

theorem FromString_modifiers_lt (hstr : wstring) (c : KeyChord) (h : FromString hstr = .ok c) :
    c._modifiers < 8 := by
  rw [FromString_modifiers hstr c h]
  exact ofBools_modifiers_lt _ _ _

theorem FromString_vkey_unshadowed (hstr : wstring) (c : KeyChord)
    (h : FromString hstr = .ok c) :
    c._vkey ∉ [VK_ADD, VK_OEM_PLUS, VK_OEM_MINUS, VK_OEM_PERIOD] := by
  rcases FromString_vkey_cases hstr c h with ⟨h0, _⟩ | ⟨part, hp, _, hf⟩
  · rw [h0]; decide
  · exact (findKey_unshadowed part _ (splitParts_no_delim hstr part hp) hf).1

theorem ToString_ne_empty_of_keyName (c : KeyChord) (name : wstring)
    (h : keyName c._vkey = some name) : ToString c ≠ L "" := by
  rw [ToString_eq, h, L_empty_eq]
  have := keyName_ne_nil _ _ h
  simp [this]

/-- C14 (parser-produced chords round-trip).  When `FromString` accepts a text
with a chord whose key code is not 0, `ToString` of the chord is non-empty,
`FromString` accepts that serialization and returns the same chord, and format
after parse maps the serialization to itself. -/
theorem fromString_toString_fromString (text : wstring) (c : KeyChord)
    (h : FromString text = .ok c) (hv : c._vkey ≠ 0) :
    ToString c ≠ L "" ∧ FromString (ToString c) = .ok c ∧
      parseThenFormat text = .ok (ToString c) ∧
      parseThenFormat (ToString c) = .ok (ToString c) := by
  rcases FromString_vkey_cases text c h with ⟨h0, _⟩ | ⟨part, hp, _, hf⟩
  · exact absurd h0 hv
  · obtain ⟨hu, _, name, hn⟩ := findKey_unshadowed part _ (splitParts_no_delim text part hp) hf
    have hne := ToString_ne_empty_of_keyName c name hn
    have hrt := FromString_ToString_unshadowed c (FromString_modifiers_lt text c h) hne hu
    refine ⟨hne, hrt, ?_, ?_⟩
    · simp only [parseThenFormat, h]
    · simp only [parseThenFormat, hrt]

/-- C14 at the text `"shift+ctrl+A"`: it parses to Ctrl, Shift and the code of
`A`, which formats to `"ctrl+shift+a"` and parses back to the same chord. -/
theorem fromString_toString_fromString_witness :
    ToString ⟨KeyModifiers.Ctrl ||| KeyModifiers.Shift, 0x41⟩ = L "ctrl+shift+a" ∧
    FromString (ToString ⟨KeyModifiers.Ctrl ||| KeyModifiers.Shift, 0x41⟩) =
      .ok ⟨KeyModifiers.Ctrl ||| KeyModifiers.Shift, 0x41⟩ ∧
    parseThenFormat (L "shift+ctrl+A") = .ok (L "ctrl+shift+a") :=
  ⟨by decide,
    (fromString_toString_fromString (L "shift+ctrl+A")
      ⟨KeyModifiers.Ctrl ||| KeyModifiers.Shift, 0x41⟩ (by decide) (by decide)).2.1,
    by decide⟩

/-- C15 (unreachable key codes).  No accepted text makes `FromString` return
the code `VK_ADD`, `VK_OEM_PLUS`, `VK_OEM_MINUS` or `VK_OEM_PERIOD`, although
each of the four is the code of a table entry and `ToString` gives a non-empty
text for it under every modifier value.  No token the splitter yields holds a
`+`, so the name `"+"` is never looked up; the names `"-"` and `"."` resolve to
the earlier entries `VK_SUBTRACT` and `VK_DECIMAL`. -/
theorem fromString_unreachable_codes :
    (∀ (text : wstring) (c : KeyChord), FromString text = .ok c →
      c._vkey ∉ [VK_ADD, VK_OEM_PLUS, VK_OEM_MINUS, VK_OEM_PERIOD]) ∧
    (∀ vkey ∈ [VK_ADD, VK_OEM_PLUS, VK_OEM_MINUS, VK_OEM_PERIOD],
      vkey ∈ vkeyNamePairs.map Prod.fst ∧
        ∀ m : KeyModifiers, ToString ⟨m, vkey⟩ ≠ L "") ∧
    (∀ text : wstring, ∀ part ∈ splitParts text, 0x2B ∉ part ∧ part ≠ L "+") ∧
    findKey (L "-") = some VK_SUBTRACT ∧ findKey (L ".") = some VK_DECIMAL ∧
    (∀ (text : wstring) (c : KeyChord), FromString text = .ok c →
      (L "-" ∈ splitParts text → c._vkey ≠ VK_OEM_MINUS) ∧
      (L "." ∈ splitParts text → c._vkey ≠ VK_OEM_PERIOD)) := by
  refine ⟨FromString_vkey_unshadowed, ?_, ?_, by decide, by decide, ?_⟩
  · intro vkey hmem
    have hk : ∀ v ∈ [VK_ADD, VK_OEM_PLUS, VK_OEM_MINUS, VK_OEM_PERIOD],
        v ∈ vkeyNamePairs.map Prod.fst ∧ (keyName v).isSome = true := by decide
    obtain ⟨h1, h2⟩ := hk vkey hmem
    refine ⟨h1, fun m => ?_⟩
    obtain ⟨name, hn⟩ := Option.isSome_iff_exists.1 h2
    exact ToString_ne_empty_of_keyName ⟨m, vkey⟩ name hn
  · intro text part hp
    have hd := splitParts_no_delim text part hp
    refine ⟨hd, fun e => ?_⟩
    rw [e] at hd
    exact hd (by decide)
  · intro text c h
    have hu := FromString_vkey_unshadowed text c h
    simp only [List.mem_cons, List.mem_singleton, List.not_mem_nil, or_false, not_or] at hu
    exact ⟨fun _ => hu.2.2.1, fun _ => hu.2.2.2⟩

/-- C15 at the text `"ctrl+-"`: it is accepted with the code `VK_SUBTRACT`,
which is none of the four codes. -/
theorem fromString_unreachable_codes_witness :
    FromString (L "ctrl+-") = .ok ⟨KeyModifiers.Ctrl, VK_SUBTRACT⟩ ∧
    VK_SUBTRACT ∉ [VK_ADD, VK_OEM_PLUS, VK_OEM_MINUS, VK_OEM_PERIOD] :=
  ⟨by decide,
    fromString_unreachable_codes.1 (L "ctrl+-") ⟨KeyModifiers.Ctrl, VK_SUBTRACT⟩ (by decide)⟩

end KeyChord

namespace KeyChord

/-! ## Texts without a key -/

theorem ToString_vkey_zero (m : KeyModifiers) : ToString ⟨m, 0⟩ = L "" := by
  have h0 : keyName 0 = none := by decide
  rw [ToString_eq]
  simp only [h0, L_empty_eq]

/-- C16 (key-less input).  When every token of a text is a modifier keyword
and there are at most 4 of them, the empty text with its zero tokens included,
`FromString` succeeds and returns the key code 0 with the accumulated
modifiers, and `ToString` of that chord is the empty string. -/
theorem fromString_keyless (text : wstring)
    (hall : ∀ part ∈ splitParts text, isModifierKey part)
    (hlen : (splitParts text).length ≤ 4) :
    FromString text = .ok ⟨modifierFlags (splitParts text), 0⟩ ∧
      ToString ⟨modifierFlags (splitParts text), 0⟩ = L "" ∧
      parseThenFormat text = .ok (L "") := by
  have h : FromString text = .ok ⟨modifierFlags (splitParts text), 0⟩ := by
    rw [FromString_ok_iff]
    refine ⟨hlen, ?_⟩
    rw [parseParts_all_modifiers _ _ hall]
    simp [KeyModifiers.None]
  refine ⟨h, ToString_vkey_zero _, ?_⟩
  simp only [parseThenFormat, h, ToString_vkey_zero]

/-- C16 at the texts `"ctrl"` and `""`: both are accepted with the key code 0
and format to the empty string. -/
theorem fromString_keyless_witness :
    splitParts (L "") = [] ∧
    FromString (L "") = .ok ⟨KeyModifiers.None, 0⟩ ∧
    parseThenFormat (L "") = .ok (L "") ∧
    FromString (L "ctrl") = .ok ⟨KeyModifiers.Ctrl, 0⟩ ∧
    parseThenFormat (L "ctrl") = .ok (L "") ∧
    FromString (L "ctrl+alt+shift+ctrl") =
      .ok ⟨KeyModifiers.Ctrl ||| KeyModifiers.Alt ||| KeyModifiers.Shift, 0⟩ :=
  ⟨by decide, (fromString_keyless (L "") (by decide) (by decide)).1,
    (fromString_keyless (L "") (by decide) (by decide)).2.2,
    (fromString_keyless (L "ctrl") (by decide) (by decide)).1,
    (fromString_keyless (L "ctrl") (by decide) (by decide)).2.2,
    (fromString_keyless (L "ctrl+alt+shift+ctrl") (by decide) (by decide)).1⟩

/-! ## A trailing delimiter and empty tokens -/

theorem getlineLoop_trailing_delim (init temp : wstring) (wch : Nat) (h : wch ≠ 0x2B) :
    getlineLoop (init ++ [wch] ++ [0x2B]) temp = getlineLoop (init ++ [wch]) temp := by
  induction init generalizing temp with
  | nil =>
    by_cases he : wch = WEOF
    · simp [getlineLoop, he]
    · simp [getlineLoop, h, he, delim_ne_WEOF]
  | cons c rest ih =>
    by_cases he : c = WEOF
    · simp only [List.cons_append, getlineLoop, he, if_true]
    · by_cases hc : c = 0x2B
      · have e := ih []
        simp only [List.cons_append, getlineLoop, hc, delim_ne_WEOF, if_true, if_false]
        exact congrArg _ e
      · have e := ih (temp ++ [c])
        simp only [List.cons_append, getlineLoop, he, hc, if_false]
        exact e

theorem splitParts_trailing_delim (s : wstring) (hne : s ≠ [])
    (hlast : s.getLast? ≠ some 0x2B) : splitParts (s ++ L "+") = splitParts s := by
  cases hl : s.getLast? with
  | none => exact absurd (List.getLast?_eq_none_iff.1 hl) hne
  | some wch =>
    obtain ⟨init, rfl⟩ := List.getLast?_eq_some_iff.1 hl
    have hw : wch ≠ 0x2B := by
      intro e
      rw [hl, e] at hlast
      exact hlast rfl
    rw [L_plus_eq]
    exact getlineLoop_trailing_delim init [] wch hw

theorem getlineLoop_after_delim (a temp rest : wstring) (ha : WEOF ∉ a) :
    ∀ part ∈ getlineLoop rest [], part ∈ getlineLoop (a ++ 0x2B :: rest) temp := by
  induction a generalizing temp with
  | nil =>
    intro part hp
    simp [getlineLoop, hp, delim_ne_WEOF]
  | cons c more ih =>
    intro part hp
    have he : c ≠ WEOF := fun e => ha (by simp [e])
    have hm : WEOF ∉ more := fun e => ha (by simp [e])
    by_cases hc : c = 0x2B
    · simp only [List.cons_append, getlineLoop, hc, delim_ne_WEOF, if_true, if_false]
      exact List.mem_cons_of_mem _ (ih [] hm part hp)
    · simp only [List.cons_append, getlineLoop, he, hc, if_false]
      exact ih _ hm part hp

theorem FromString_empty_token (text : wstring) (h : [] ∈ splitParts text) :
    FromString text = .error hresult.invalid_argument := by
  rw [FromString_error_iff]
  exact Or.inr ⟨[], h, by decide, by decide⟩

end KeyChord

namespace KeyChord

/-- C17 (trailing delimiter).  For every non-empty text that does not end in
`+`, appending one `+` leaves the token sequence unchanged, so
`FromString` gives the same result, success with the same chord or failure, on
both texts.  Every text with an empty token fails; a leading `+` always
produces an empty token, and two adjacent `+` produce one when no code unit
equal to `WEOF` stands before them. -/
theorem trailing_delim_ignored (s : wstring) (hne : s ≠ [])
    (hlast : s.getLast? ≠ some 0x2B) :
    splitParts (s ++ L "+") = splitParts s ∧
    FromString (s ++ L "+") = FromString s ∧
    (∀ c, FromString (s ++ L "+") = .ok c ↔ FromString s = .ok c) ∧
    (∀ text : wstring, [] ∈ splitParts text →
      FromString text = .error hresult.invalid_argument) ∧
    (∀ rest : wstring, [] ∈ splitParts (L "+" ++ rest) ∧
      FromString (L "+" ++ rest) = .error hresult.invalid_argument) ∧
    (∀ a b : wstring, WEOF ∉ a → [] ∈ splitParts (a ++ L "++" ++ b) ∧
      FromString (a ++ L "++" ++ b) = .error hresult.invalid_argument) := by
  have hs := splitParts_trailing_delim s hne hlast
  have hf : FromString (s ++ L "+") = FromString s := by
    unfold FromString
    rw [hs]
  refine ⟨hs, hf, fun c => by rw [hf], FromString_empty_token, ?_, ?_⟩
  · intro rest
    have h : [] ∈ splitParts (L "+" ++ rest) := by
      simp [splitParts, getlineLoop, L_plus_eq, delim_ne_WEOF]
    exact ⟨h, FromString_empty_token _ h⟩
  · intro a b ha
    have e : L "++" = [0x2B, 0x2B] := by decide
    have h0 : [] ∈ getlineLoop (0x2B :: b) [] := by simp [getlineLoop, delim_ne_WEOF]
    have h := getlineLoop_after_delim a [] (0x2B :: b) ha [] h0
    have h2 : [] ∈ splitParts (a ++ L "++" ++ b) := by simpa [splitParts, e] using h
    exact ⟨h2, FromString_empty_token _ h2⟩

/-- C17, counterexample to the clause that two adjacent `+` always make
`FromString` fail: in the text made of the code unit `WEOF` followed by `"++"`
the splitter stops at the first unit, so the text has two adjacent `+` and no
token at all, and `FromString` returns the chord with no modifiers and the key
code 0. -/
theorem adjacent_delims_behind_WEOF_accepted :
    splitParts ([WEOF] ++ L "++") = [] ∧
    FromString ([WEOF] ++ L "++") = .ok ⟨KeyModifiers.None, 0⟩ ∧
    ¬ (∀ a b : wstring,
        FromString (a ++ L "++" ++ b) = .error hresult.invalid_argument) := by
  refine ⟨by decide, by decide, fun h => ?_⟩
  have h1 := h [WEOF] []
  have h2 : FromString ([WEOF] ++ L "++" ++ []) = .ok ⟨KeyModifiers.None, 0⟩ := by decide
  rw [h2] at h1
  cases h1

/-- C17 at the text `"ctrl+alt+shift+a"`: with one `+` appended it still has
4 tokens and is accepted with the same chord, while `"+a"`, `"a++b"` and
`"a++"` fail. -/
theorem trailing_delim_ignored_witness :
    splitParts (L "ctrl+alt+shift+a+") = [CTRL_KEY, ALT_KEY, SHIFT_KEY, L "a"] ∧
    FromString (L "ctrl+alt+shift+a+") =
      .ok ⟨KeyModifiers.Ctrl ||| KeyModifiers.Alt ||| KeyModifiers.Shift, 0x41⟩ ∧
    FromString (L "ctrl+alt+shift+a" ++ L "+") = FromString (L "ctrl+alt+shift+a") ∧
    FromString (L "+a") = .error hresult.invalid_argument ∧
    FromString (L "a" ++ L "++" ++ L "b") = .error hresult.invalid_argument ∧
    FromString (L "a++") = .error hresult.invalid_argument :=
  ⟨by decide, by decide,
    (trailing_delim_ignored (L "ctrl+alt+shift+a") (by decide) (by decide)).2.1,
    by decide,
    ((trailing_delim_ignored (L "ctrl+alt+shift+a") (by decide) (by decide)).2.2.2.2.2
      (L "a") (L "b") (by decide)).2,
    by decide⟩

/-! ## Quick ranges against the table -/

theorem table_disjoint_from_quick : ∀ pair ∈ vkeyNamePairs,
    ¬ (0x30 ≤ pair.1 ∧ pair.1 ≤ 0x39) ∧ ¬ (0x41 ≤ pair.1 ∧ pair.1 ≤ 0x5A) ∧
      quickLookup pair.2 = none ∧ ¬ isModifierKey pair.2 := by
  decide

theorem searchName_none_of_quick (part : wstring) (vkey : Int)
    (h : quickLookup part = some vkey) : searchName part vkeyNamePairs = none := by
  rw [searchName_eq_none_iff]
  intro hmem
  obtain ⟨pair, hp, e⟩ := List.mem_map.1 hmem
  have := (table_disjoint_from_quick pair hp).2.2.1
  rw [e, h] at this
  cases this

theorem searchVkey_none_of_quick (vkey : Int)
    (h : 0x30 ≤ vkey ∧ vkey ≤ 0x39 ∨ 0x41 ≤ vkey ∧ vkey ≤ 0x5A) :
    searchVkey vkey vkeyNamePairs = none := by
  rw [searchVkey_eq_find, Option.map_eq_none', List.find?_eq_none]
  intro pair hp
  obtain ⟨h1, h2, _⟩ := table_disjoint_from_quick pair hp
  simp only [decide_eq_true_eq]
  intro e
  rw [e] at h1 h2
  rcases h with h | h
  · exact h1 h
  · exact h2 h

theorem findKey_modifier (part : wstring) (h : isModifierKey part) : findKey part = none := by
  rcases h with e | e | e <;> subst e <;> decide

/-- C18 (quick paths and table never overlap).  No table entry has a code in
the digit range or the uppercase-letter range, and no entry's name is a single
digit or letter or a modifier keyword.  So a token the quick lookup resolves
has no table entry, a code in a quick range has no table entry, a modifier
keyword resolves on neither path, and trying the table before the quick path
gives the same result in both `FromString` and `ToString`. -/
theorem quick_and_table_disjoint :
    (∀ pair ∈ vkeyNamePairs,
      ¬ (0x30 ≤ pair.1 ∧ pair.1 ≤ 0x39) ∧ ¬ (0x41 ≤ pair.1 ∧ pair.1 ≤ 0x5A) ∧
        (¬ ∃ wch : Nat, pair.2 = [wch] ∧
          (0x30 ≤ wch ∧ wch ≤ 0x39 ∨ 0x61 ≤ wch ∧ wch ≤ 0x7A ∨ 0x41 ≤ wch ∧ wch ≤ 0x5A)) ∧
        ¬ isModifierKey pair.2) ∧
    (∀ (part : wstring) (vkey : Int), quickLookup part = some vkey →
      searchName part vkeyNamePairs = none) ∧
    (∀ vkey : Int, 0x30 ≤ vkey ∧ vkey ≤ 0x39 ∨ 0x41 ≤ vkey ∧ vkey ≤ 0x5A →
      searchVkey vkey vkeyNamePairs = none) ∧
    (∀ part : wstring, isModifierKey part →
      quickLookup part = none ∧ searchName part vkeyNamePairs = none) ∧
    (∀ part : wstring, findKeyTableFirst part = findKey part) ∧
    (∀ (buffer : wstring) (vkey : Int),
      appendKeyTableFirst buffer vkey = appendKey buffer vkey) := by
  refine ⟨?_, searchName_none_of_quick, searchVkey_none_of_quick, ?_, ?_, ?_⟩
  · intro pair hp
    obtain ⟨h1, h2, h3, h4⟩ := table_disjoint_from_quick pair hp
    exact ⟨h1, h2, (quickLookup_eq_none_iff pair.2).1 h3, h4⟩
  · intro part hm
    have hf := findKey_modifier part hm
    unfold findKey at hf
    cases hq : quickLookup part with
    | none => rw [hq] at hf; exact ⟨rfl, hf⟩
    | some v => rw [hq] at hf; cases hf
  · intro part
    unfold findKeyTableFirst findKey
    cases hq : quickLookup part with
    | none => cases searchName part vkeyNamePairs <;> rfl
    | some v => rw [searchName_none_of_quick part v hq]
  · intro buffer vkey
    unfold appendKeyTableFirst appendKey
    by_cases h1 : 0x30 ≤ vkey ∧ vkey ≤ 0x39
    · rw [searchVkey_none_of_quick vkey (Or.inl h1)]
    · by_cases h2 : 0x41 ≤ vkey ∧ vkey ≤ 0x5A
      · rw [searchVkey_none_of_quick vkey (Or.inr h2)]
      · simp only [h1, h2, if_false]

/-- C18 at the token `"a"` and the code of `A`: the quick path resolves them
and the table has no entry for either. -/
theorem quick_and_table_disjoint_witness :
    quickLookup (L "a") = some 0x41 ∧
    searchName (L "a") vkeyNamePairs = none ∧
    searchVkey 0x41 vkeyNamePairs = none :=
  ⟨by decide, quick_and_table_disjoint.2.1 (L "a") 0x41 (by decide),
    quick_and_table_disjoint.2.2.1 0x41 (by decide)⟩

end KeyChord
